import Mathlib

/-!
# firebase-scrypt: the modified scrypt password hash of Firebase Auth

A shallow embedding of `main.go` (package `scrypt`) and of the parts of the Go
standard library it calls.

* Go strings and byte slices are lists of bytes; a slice that may be `nil`
  (the two slice fields of `crypt`) is an `Option`, `none` standing for `nil`.
* Go `int` is the 64-bit signed integer, embedded in `Int`.
* A call either returns or panics (`Outcome`).
* `encoding/base64` (`StdEncoding`), the parameter checks of
  `golang.org/x/crypto/scrypt.Key`, the key-size check of `aes.NewCipher` and
  the counter mode of `crypto/cipher` are embedded as functions; the scrypt
  mixing function and the AES block permutation are taken as parameters
  (`Primitives`).  Memory is unbounded: allocation never fails.
* `crypt.Encode` works on the bytes of the configuration; `cryptM.Encode` is
  the same method as a state transformer, with the slices as windows on
  backing arrays in memory, and is shown to return what `crypt.Encode` does.
* `crypt.EncodeWith` is the same method with the call of `scrypt.Key` as a
  parameter, for what holds of `Encode` whatever that call checks, allocates
  or returns.
-/

namespace FirebaseScrypt

/-! ## Values -/

/-- One byte. -/
abbrev Byte := Fin 256

/-- A Go string: an immutable sequence of bytes. -/
abbrev GoString := List Byte

/-- The bytes of an ASCII literal. -/
def str (s : String) : GoString := s.toList.map fun ch => Fin.ofNat ch.toNat

/-- The error values that cross `Encode`: `errors.New` strings,
`base64.CorruptInputError` (an input offset) and `aes.KeySizeError`. -/
inductive GoError where
  | errorString (msg : String)
  | corruptInput (offset : Nat)
  | keySize (size : Nat)
  deriving DecidableEq, Repr

/-- A call returns a value or panics at run time. -/
inductive Outcome (α : Type) where
  | panic (msg : String)
  | ret (a : α)
  deriving DecidableEq, Repr

/-! ## encoding/base64, StdEncoding -/

namespace base64

/-- The alphabet of `StdEncoding`: `encodeStd[i]` for a 6-bit value. -/
def encode (i : Nat) : Byte :=
  if i < 26 then Fin.ofNat (65 + i)
  else if i < 52 then Fin.ofNat (97 + (i - 26))
  else if i < 62 then Fin.ofNat (48 + (i - 52))
  else if i = 62 then 43
  else 47

/-- The table `decodeMap` of `StdEncoding`: the 6-bit value of an alphabet
byte, `0xff` for every other byte. -/
def decodeMap (c : Byte) : Nat :=
  if 65 ≤ c.val ∧ c.val ≤ 90 then c.val - 65
  else if 97 ≤ c.val ∧ c.val ≤ 122 then c.val - 97 + 26
  else if 48 ≤ c.val ∧ c.val ≤ 57 then c.val - 48 + 52
  else if c.val = 43 then 62
  else if c.val = 47 then 63
  else 255

/-- The padding character `=`. -/
def padChar : Byte := 61

/-- Whether a byte is `\n` or `\r`, which the decoder skips. -/
def isNewline (c : Byte) : Bool := c.val = 10 || c.val = 13

/-- The method `(*Encoding).EncodeToString`: three bytes give four alphabet bytes, a rest
of one or two bytes is padded with `=`. -/
def EncodeToString : List Byte → GoString
  | b0 :: b1 :: b2 :: rest =>
    let val := b0.val * 65536 + b1.val * 256 + b2.val
    encode (val / 262144 % 64) :: encode (val / 4096 % 64) :: encode (val / 64 % 64)
      :: encode (val % 64) :: EncodeToString rest
  | [b0, b1] =>
    let val := b0.val * 65536 + b1.val * 256
    [encode (val / 262144 % 64), encode (val / 4096 % 64), encode (val / 64 % 64), padChar]
  | [b0] =>
    let val := b0.val * 65536
    [encode (val / 262144 % 64), encode (val / 4096 % 64), padChar, padChar]
  | [] => []

/-- The end of `decodeQuantum`: the first `dlen - 1` of the three bytes that
the 6-bit values in `dbuf` (missing ones zero) assemble to. -/
def quantumBytes (dbuf : List Nat) (dlen : Nat) : List Byte :=
  let val := dbuf.getD 0 0 * 262144 + dbuf.getD 1 0 * 4096 + dbuf.getD 2 0 * 64 + dbuf.getD 3 0
  ([val / 65536 % 256, val / 256 % 256, val % 256].map Fin.ofNat).take (dlen - 1)

/-- The loop `for si < len(src) && (src[si] == '\n' || src[si] == '\r')`:
the unread input and its offset after the newlines. -/
def skipNewlines : List Byte → Nat → List Byte × Nat
  | [], si => ([], si)
  | c :: rest, si => if isNewline c then skipNewlines rest (si + 1) else (c :: rest, si)

/-- The tail of the padding branch of `decodeQuantum`: newlines are skipped,
anything left is trailing garbage; the quantum's bytes are written either way. -/
def finishPadding (rest : List Byte) (si : Nat) (dbuf : List Nat) :
    List Byte × Option GoError :=
  let r := skipNewlines rest si
  (quantumBytes dbuf dbuf.length,
    if r.1.isEmpty then none else some (GoError.corruptInput r.2))

/-- The padding branch of `decodeQuantum`, entered after a `=` was read with
`dbuf.length` values of the quantum collected; `si` is the offset after it. -/
def decodePadding (srcLen : Nat) (rest : List Byte) (si : Nat) (dbuf : List Nat) :
    List Byte × Option GoError :=
  if dbuf.length < 2 then ([], some (GoError.corruptInput (si - 1)))
  else if dbuf.length = 2 then
    match skipNewlines rest si with
    | ([], _) => ([], some (GoError.corruptInput srcLen))
    | (c :: rest2, si2) =>
      if c ≠ padChar then ([], some (GoError.corruptInput (si2 - 1)))
      else finishPadding rest2 (si2 + 1) dbuf
  else finishPadding rest si dbuf

/-- The method `(*Encoding).Decode`, the loop over `decodeQuantum` read byte by byte:
`rest` is `src[si:]` and `dbuf` holds the values of the quantum in progress.
The result is the bytes written and the error. -/
def decodeFrom (srcLen : Nat) : List Byte → Nat → List Nat → List Byte × Option GoError
  | [], si, dbuf =>
    if dbuf.length = 0 then ([], none)
    else ([], some (GoError.corruptInput (si - dbuf.length)))
  | c :: rest, si, dbuf =>
    if decodeMap c ≠ 255 then
      if dbuf.length = 3 then
        let r := decodeFrom srcLen rest (si + 1) []
        (quantumBytes (dbuf ++ [decodeMap c]) 4 ++ r.1, r.2)
      else decodeFrom srcLen rest (si + 1) (dbuf ++ [decodeMap c])
    else if isNewline c then decodeFrom srcLen rest (si + 1) dbuf
    else if c ≠ padChar then ([], some (GoError.corruptInput si))
    else decodePadding srcLen rest (si + 1) dbuf

/-- The method `(*Encoding).DecodeString`, returning `dbuf[:n], err`.  The slice returned is never
`nil`, and with an error it still holds the bytes written before it. -/
def DecodeString (s : GoString) : List Byte × Option GoError :=
  decodeFrom s.length s 0 []

end base64

/-! ## Go integers -/

/-- The width of `int` and `uint`. -/
def intSize : Nat := 64

/-- The largest `int`: `int(^uint(0) >> 1)`. -/
def maxInt : Int := 2 ^ (intSize - 1) - 1

/-- The `int` that a mathematical integer wraps to. -/
def wrapInt (x : Int) : Int := (x + 2 ^ (intSize - 1)) % 2 ^ intSize - 2 ^ (intSize - 1)

/-- The conversion `uint64(x)` of an `int`. -/
def toUint64 (x : Int) : Int := x % 2 ^ 64

/-- The shift `x << s` of `int` operands: a negative count panics, a count of
the width or more shifts every bit out. -/
def shiftLeft (x s : Int) : Outcome Int :=
  if s < 0 then Outcome.panic "runtime error: negative shift amount"
  else if (intSize : Int) ≤ s then Outcome.ret 0
  else Outcome.ret (wrapInt (x * 2 ^ s.toNat))

/-- The quotient `a / b` of `int` operands: truncated, and a zero divisor
panics. -/
def quo (a b : Int) : Outcome Int :=
  if b = 0 then Outcome.panic "runtime error: integer divide by zero"
  else Outcome.ret (wrapInt (Int.tdiv a b))

/-! ## The primitives taken as parameters -/

/-- The two computations that are not embedded: the scrypt derivation proper
(what `scrypt.Key` computes once its parameters passed the checks) and the
encryption of one block by AES.  Their contracts are the lengths of what they
return. -/
structure Primitives where
  /-- The derived key for `password salt N r p keyLen`. -/
  derive : List Byte → List Byte → Int → Int → Int → Int → List Byte
  /-- The key has the length asked for: `pbkdf2.Key` returns `dk[:keyLen]`. -/
  derive_length : ∀ password salt N r p keyLen,
    (derive password salt N r p keyLen).length = keyLen.toNat
  /-- The method `Encrypt` of the `cipher.Block` for `key`, on one block. -/
  encrypt : List Byte → List Byte → List Byte
  /-- A block is encrypted to a block. -/
  encrypt_length : ∀ key blk, blk.length = 16 → (encrypt key blk).length = 16

/-! ## golang.org/x/crypto/scrypt -/

namespace scrypt

/-- The error `scrypt.Key` returns for a bad `N`. -/
def errN : GoError := GoError.errorString "scrypt: N must be > 1 and a power of 2"

/-- The error `scrypt.Key` returns for parameters out of range. -/
def errTooLarge : GoError := GoError.errorString "scrypt: parameters are too large"

/-- The two parameter checks that open `scrypt.Key`, with the left-to-right
evaluation of `||` and its divisions: the error returned, if any.  These are
the checks of the library before it added a guard: later versions reject
`r <= 0` and `p <= 0` first, with an error of their own, and so never divide
by zero. -/
def checkParams (N r p : Int) : Outcome (Option GoError) :=
  if N ≤ 1 ∨ Nat.land N.toNat (N - 1).toNat ≠ 0 then Outcome.ret (some errN)
  else if 2 ^ 30 ≤ toUint64 r * toUint64 p % 2 ^ 64 then Outcome.ret (some errTooLarge)
  else
    match quo (maxInt / 128) p with
    | Outcome.panic msg => Outcome.panic msg
    | Outcome.ret boundP =>
      if boundP < r then Outcome.ret (some errTooLarge)
      else if maxInt / 256 < r then Outcome.ret (some errTooLarge)
      else
        match quo (maxInt / 128) r with
        | Outcome.panic msg => Outcome.panic msg
        | Outcome.ret boundR =>
          if boundR < N then Outcome.ret (some errTooLarge)
          else Outcome.ret none

/-- The function `scrypt.Key(password, salt, N, r, p, keyLen)`: `nil` and the error when a
check fails, else the derived key.  The allocation of the working memory,
which panics or fails for large accepted `N` and `r`, is not embedded. -/
def Key (P : Primitives) (password salt : List Byte) (N r p keyLen : Int) :
    Outcome (List Byte × Option GoError) :=
  match checkParams N r p with
  | Outcome.panic msg => Outcome.panic msg
  | Outcome.ret (some err) => Outcome.ret ([], some err)
  | Outcome.ret none => Outcome.ret (P.derive password salt N r p keyLen, none)

end scrypt

/-! ## crypto/aes and crypto/cipher -/

namespace aes

/-- The constant `aes.BlockSize`. -/
def BlockSize : Nat := 16

/-- The function `aes.NewCipher(key)`: the block for a key of 16, 24 or 32 bytes (the key
stands for it), `KeySizeError` for any other length. -/
def NewCipher (key : List Byte) : Option (List Byte) × Option GoError :=
  if key.length = 16 ∨ key.length = 24 ∨ key.length = 32 then (some key, none)
  else (none, some (GoError.keySize key.length))

end aes

namespace cipher

/-- The counter update of the CTR stream: a big-endian increment of the
counter bytes, given here least significant byte first. -/
def incrementRev : List Byte → List Byte
  | [] => []
  | b :: rest => if b + 1 = 0 then 0 :: incrementRev rest else (b + 1) :: rest

/-- The counter after one block. -/
def increment (ctr : List Byte) : List Byte := (incrementRev ctr.reverse).reverse

/-- A CTR stream: the key of its block and its counter. -/
structure Stream where
  key : List Byte
  ctr : List Byte

/-- The function `cipher.NewCTR(block, iv)`: panics unless the IV has the block size. -/
def NewCTR (key : List Byte) (iv : List Byte) : Outcome Stream :=
  if iv.length ≠ aes.BlockSize then
    Outcome.panic "cipher.NewCTR: IV length must equal block size"
  else Outcome.ret { key := key, ctr := iv }

/-- The key stream of `n` blocks: the encryptions of successive counters. -/
def keyStream (P : Primitives) (key : List Byte) : Nat → List Byte → List Byte
  | 0, _ => []
  | n + 1, ctr => P.encrypt key ctr ++ keyStream P key n (increment ctr)

/-- The method `stream.XORKeyStream(dst, src)` on a fresh stream: the new contents of
`dst`, each byte of `src` XORed with the key stream; panics when `dst` is
shorter than `src`. -/
def XORKeyStream (P : Primitives) (s : Stream) (dst src : List Byte) : Outcome (List Byte) :=
  if dst.length < src.length then Outcome.panic "crypto/cipher: output smaller than input"
  else
    let ks := keyStream P s.key ((src.length + aes.BlockSize - 1) / aes.BlockSize) s.ctr
    Outcome.ret (List.zipWith (fun a b => a ^^^ b) src ks ++ dst.drop src.length)

end cipher

/-! ## main.go -/

/-- The constant `p`. -/
def p : Int := 1

/-- The constant `keyLen`. -/
def keyLen : Int := 32

/-- The struct `crypt`; the slice fields are `none` when `nil`. -/
structure crypt where
  SignerKey : Option (List Byte) := none
  SaltSeparator : Option (List Byte) := none
  Rounds : Int := 0
  MemCost : Int := 0
  P : Int := 0
  KeyLen : Int := 0
  deriving DecidableEq, Repr

/-- The error of the configuration check. -/
def configError : GoError := GoError.errorString "config error"

/-- The function `New`: both strings are decoded and the errors dropped. -/
def New (signerKey saltSeparator : GoString) (rounds memCost : Int) : crypt :=
  let sk := (base64.DecodeString signerKey).1
  let ss := (base64.DecodeString saltSeparator).1
  { SignerKey := some sk
    SaltSeparator := some ss
    Rounds := rounds
    MemCost := memCost
    P := p
    KeyLen := keyLen }

/-- The length `len(s)` of a slice, zero for `nil`. -/
def len (s : Option (List Byte)) : Nat := (s.getD []).length

/-- The method `(c *crypt) Encode`: the returned pair `(string, error)`, or a
panic. -/
def crypt.Encode (P : Primitives) (c : crypt) (password salt : GoString) :
    Outcome (GoString × Option GoError) :=
  match c.SaltSeparator, c.SignerKey with
  | none, _ => Outcome.ret ([], some configError)
  | _, none => Outcome.ret ([], some configError)
  | some saltSeparator, some signerKey =>
    match base64.DecodeString salt with
    | (_, some err) => Outcome.ret ([], some err)
    | (s, none) =>
      match shiftLeft 1 c.MemCost with
      | Outcome.panic msg => Outcome.panic msg
      | Outcome.ret n =>
        match scrypt.Key P password (s ++ saltSeparator) n c.Rounds p keyLen with
        | Outcome.panic msg => Outcome.panic msg
        | Outcome.ret (_, some err) => Outcome.ret ([], some err)
        | Outcome.ret (ck, none) =>
          match aes.NewCipher ck with
          | (_, some err) => Outcome.ret ([], some err)
          | (none, none) => Outcome.panic "runtime error: invalid memory address or nil pointer dereference"
          | (some block, none) =>
            let cipherText : List Byte := List.replicate (aes.BlockSize + signerKey.length) 0
            match cipher.NewCTR block (cipherText.take aes.BlockSize) with
            | Outcome.panic msg => Outcome.panic msg
            | Outcome.ret stream =>
              match cipher.XORKeyStream P stream (cipherText.drop aes.BlockSize) signerKey with
              | Outcome.panic msg => Outcome.panic msg
              | Outcome.ret out => Outcome.ret (base64.EncodeToString out, none)

/-- The method `(c *crypt) Verify`. -/
def crypt.Verify (P : Primitives) (c : crypt) (password passwordHash salt : GoString) :
    Outcome Bool :=
  match c.Encode P password salt with
  | Outcome.panic msg => Outcome.panic msg
  | Outcome.ret (_, some _) => Outcome.ret false
  | Outcome.ret (h, none) => Outcome.ret (decide (h = passwordHash))

/-- The package state: the variable `Default`, a pointer that is `nil`
(`none`) until it is set. -/
structure Package where
  Default : Option crypt := none
  deriving DecidableEq, Repr

/-- The function `init`, run once when the package is loaded. -/
def init (_ : Package) : Package := { Default := some {} }

/-- The package at start-up: `init` run on the zero values. -/
def startup : Package := init {}

/-- The package-level `Encode`: the method on `Default`. -/
def Encode (P : Primitives) (pkg : Package) (password salt : GoString) :
    Outcome (GoString × Option GoError) :=
  match pkg.Default with
  | none => Outcome.panic "runtime error: invalid memory address or nil pointer dereference"
  | some c => c.Encode P password salt

/-- The package-level `Verify`: the method on `Default`. -/
def Verify (P : Primitives) (pkg : Package) (password passwordHash salt : GoString) :
    Outcome Bool :=
  match pkg.Default with
  | none => Outcome.panic "runtime error: invalid memory address or nil pointer dereference"
  | some c => c.Verify P password passwordHash salt

/-- An instance of the primitives to evaluate the definitions with: the key
is a running sum over password and salt, a block is encrypted by adding the
first key byte to each of its bytes. -/
def samplePrimitives : Primitives where
  derive password salt _ _ _ keyLen :=
    (List.range keyLen.toNat).map fun i =>
      Fin.ofNat (i + (password.map Fin.val).sum + (salt.map Fin.val).sum)
  derive_length := by intros; simp
  encrypt key blk := blk.map fun b => b + key.headD 0 + 1
  encrypt_length := by intros; simpa

/-! ## The hash as the specification words it -/

/-- The `w` low bytes of `n`, least significant first. -/
def leBytes : Nat → Nat → List Byte
  | 0, _ => []
  | w + 1, n => Fin.ofNat (n % 256) :: leBytes w (n / 256)

/-- The counter block of index `n` over the all-zero IV: `n` as 16 bytes,
most significant first. -/
def counterBlock (n : Nat) : List Byte := (leBytes 16 n).reverse

/-- The counter-mode key stream of `blocks` blocks under key `K` over the
all-zero IV: the encryptions of the counter blocks 0, 1, 2, ... -/
def ctrKeyStream (P : Primitives) (K : List Byte) (blocks : Nat) : List Byte :=
  ((List.range blocks).map fun i => P.encrypt K (counterBlock i)).flatten

/-- The bytewise XOR of the signer key with the key stream. -/
def xorBytes (signerKey ks : List Byte) : List Byte :=
  List.zipWith (fun a b => a ^^^ b) signerKey ks

/-- The hash of the specification: the key is derived from the password, the
salt bytes followed by the salt separator, cost `2^memCost`, block size
`rounds`, parallelism 1 and length 32; the signer key is XORed with the
counter-mode key stream over the zero IV and the result base64-encoded. -/
def specHash (P : Primitives) (signerKey saltSeparator : List Byte) (rounds memCost : Int)
    (password saltBytes : List Byte) : GoString :=
  let K := P.derive password (saltBytes ++ saltSeparator) (2 ^ memCost.toNat) rounds 1 32
  base64.EncodeToString (xorBytes signerKey (ctrKeyStream P K ((signerKey.length + 15) / 16)))

/-- The first `n` bytes of the counter-mode key stream under the key derived
from a password. -/
def streamHead (P : Primitives) (saltSeparator : List Byte) (rounds memCost : Int) (n : Nat)
    (password saltBytes : List Byte) : List Byte :=
  (ctrKeyStream P (P.derive password (saltBytes ++ saltSeparator) (2 ^ memCost.toNat) rounds 1 32)
    ((n + 15) / 16)).take n

/-! ## Sample inputs -/

/-- The configuration of the specification's scenario: signer key `sig`,
salt separator `Bw==`, 8 rounds, memory cost 14. -/
def sampleConfig : crypt := New (str "c2ln") (str "Bw==") 8 14

/-- A configuration whose signer key is present and of length zero. -/
def emptyKeyConfig : crypt :=
  { SignerKey := some [], SaltSeparator := some [7], Rounds := 8, MemCost := 14, P := 1,
    KeyLen := 32 }

/-- A configuration whose signer key is `nil`. -/
def nilKeyConfig : crypt :=
  { SignerKey := none, SaltSeparator := some [7], Rounds := 8, MemCost := 14, P := 1,
    KeyLen := 32 }

/-- A configuration whose cost parameters no derivation accepts: zero rounds
and a negative memory cost. -/
def badCostConfig : crypt :=
  { SignerKey := some (str "sig"), SaltSeparator := some [7], Rounds := 0, MemCost := -1,
    P := 1, KeyLen := 32 }

/-- The configuration `New` builds from the empty signer-key string. -/
def emptyStringConfig : crypt := New [] (str "Bw==") 8 14

/-- The sample configuration with other values in the fields `P` and
`KeyLen`. -/
def otherFieldsConfig : crypt := { sampleConfig with P := 5, KeyLen := 64 }

/-- What `Encode` returns once both slices are present, the salt is decoded
to `s` and the cost parameter handed to `scrypt.Key` is `n`: the rest of its
body from the call of `scrypt.Key` on. -/
def encodeWithCost (P : Primitives) (signerKey saltSeparator s : List Byte) (rounds : Int)
    (password : GoString) (n : Int) : Outcome (GoString × Option GoError) :=
  match scrypt.Key P password (s ++ saltSeparator) n rounds p keyLen with
  | Outcome.panic msg => Outcome.panic msg
  | Outcome.ret (_, some err) => Outcome.ret ([], some err)
  | Outcome.ret (ck, none) =>
    Outcome.ret (base64.EncodeToString (xorBytes signerKey
      (ctrKeyStream P ck ((signerKey.length + 15) / 16))), none)

/-- The sample configuration with memory cost 64. -/
def memCost64Config : crypt := New (str "c2ln") (str "Bw==") 8 64

/-- The sample configuration with another signer key of the same length. -/
def otherKeyConfig : crypt := New (str "a2V5") (str "Bw==") 8 14

/-! ## Encode over memory

The same method with the byte slices kept in memory: a slice is a window on a
backing array, `make` and the library calls allocate fresh arrays, and
`append` and `XORKeyStream` write through slices. -/

/-- A slice value: its backing array, the offset of its first element, its
length and its capacity. -/
structure Slice where
  arr : Nat
  off : Nat
  len : Nat
  cap : Nat
  deriving DecidableEq, Repr

/-- The memory: the backing arrays allocated so far. -/
abbrev Memory := List (List Byte)

/-- The allocation `make([]byte, n)`: a fresh zeroed array and the slice over
all of it. -/
def makeSlice (mem : Memory) (n : Nat) : Memory × Slice :=
  (mem ++ [List.replicate n 0], { arr := mem.length, off := 0, len := n, cap := n })

/-- The bytes a slice shows. -/
def load (mem : Memory) (s : Slice) : List Byte :=
  ((mem.getD s.arr []).drop s.off).take s.len

/-- The write `copy(s[i:], bytes)` through a slice. -/
def store (mem : Memory) (s : Slice) (i : Nat) (bytes : List Byte) : Memory :=
  mem.set s.arr
    ((mem.getD s.arr []).take (s.off + i) ++ bytes
      ++ (mem.getD s.arr []).drop (s.off + i + bytes.length))

/-- The built-in `append(s, bytes...)`: in place when the capacity allows,
else into a fresh array. -/
def appendSlice (mem : Memory) (s : Slice) (bytes : List Byte) : Memory × Slice :=
  if s.len + bytes.length ≤ s.cap then
    (store mem s s.len bytes, { s with len := s.len + bytes.length })
  else
    let r := makeSlice mem (s.len + bytes.length)
    (store r.1 r.2 0 (load mem s ++ bytes), r.2)

/-- The struct `crypt` as it lies in memory: the slice fields are slice
values, `none` when `nil`. -/
structure cryptM where
  SignerKey : Option Slice := none
  SaltSeparator : Option Slice := none
  Rounds : Int := 0
  MemCost : Int := 0
  P : Int := 0
  KeyLen : Int := 0
  deriving DecidableEq, Repr

/-- The state a call of the method runs in: the struct its receiver points to
and the memory. -/
structure State where
  cfg : cryptM
  mem : Memory
  deriving DecidableEq, Repr

/-- The configuration a state holds, with the bytes its slices show. -/
def State.view (st : State) : crypt :=
  { SignerKey := st.cfg.SignerKey.map (load st.mem)
    SaltSeparator := st.cfg.SaltSeparator.map (load st.mem)
    Rounds := st.cfg.Rounds
    MemCost := st.cfg.MemCost
    P := st.cfg.P
    KeyLen := st.cfg.KeyLen }

/-- A slice lies within an allocated array. -/
def Slice.valid (mem : Memory) (s : Slice) : Prop :=
  s.arr < mem.length ∧ s.off + s.len ≤ (mem.getD s.arr []).length

/-- The slices of the configuration lie within allocated arrays. -/
def State.wf (st : State) : Prop :=
  (∀ s, st.cfg.SignerKey = some s → s.valid st.mem) ∧
    (∀ s, st.cfg.SaltSeparator = some s → s.valid st.mem)

/-- Memory `mem` keeps every array of `mem0` as it was. -/
def Keeps (mem0 mem : Memory) : Prop :=
  mem0.length ≤ mem.length ∧ ∀ i, i < mem0.length → mem.getD i [] = mem0.getD i []

/-- The slice expression `s[lo:hi]`. -/
def reslice (s : Slice) (lo hi : Nat) : Slice :=
  { arr := s.arr, off := s.off + lo, len := hi - lo, cap := s.cap - lo }

/-- The `nil` slice a failed library call returns. -/
def nilSlice : Slice := { arr := 0, off := 0, len := 0, cap := 0 }

/-- The method `DecodeString` over memory: it allocates `dbuf` of the decoded
length, writes the decoded bytes and returns `dbuf[:n]` and the error. -/
def base64.DecodeStringM (mem : Memory) (s : GoString) : Memory × Slice × Option GoError :=
  let d := base64.DecodeString s
  let dbuf := makeSlice mem (s.length / 4 * 3)
  (store dbuf.1 dbuf.2 0 d.1, reslice dbuf.2 0 d.1.length, d.2)

/-- The function `scrypt.Key` over memory: it reads the salt through its slice
and returns the key in a fresh array, or `nil` and the error. -/
def scrypt.KeyM (P : Primitives) (mem : Memory) (password : GoString) (salt : Slice)
    (N r p keyLen : Int) : Memory × Outcome (Slice × Option GoError) :=
  match scrypt.Key P password (load mem salt) N r p keyLen with
  | Outcome.panic msg => (mem, Outcome.panic msg)
  | Outcome.ret (_, some err) => (mem, Outcome.ret (nilSlice, some err))
  | Outcome.ret (key, none) =>
    let k := makeSlice mem key.length
    (store k.1 k.2 0 key, Outcome.ret (k.2, none))

/-- The check `alias.InexactOverlap(dst, src)`: both are non-empty, start at
different addresses and share a byte. -/
def inexactOverlap (dst src : Slice) : Bool :=
  decide (0 < dst.len ∧ 0 < src.len ∧ dst.arr = src.arr ∧ dst.off ≠ src.off ∧
    dst.off < src.off + src.len ∧ src.off < dst.off + dst.len)

/-- The method `XORKeyStream` over memory: it reads `src`, and writes `dst`
unless it panics, also for buffers that overlap inexactly. -/
def cipher.XORKeyStreamM (P : Primitives) (s : cipher.Stream) (mem : Memory) (dst src : Slice) :
    Memory × Outcome Unit :=
  if inexactOverlap (reslice dst 0 (min dst.len src.len)) src then
    (mem, Outcome.panic "crypto/cipher: invalid buffer overlap")
  else
    match cipher.XORKeyStream P s (load mem dst) (load mem src) with
    | Outcome.panic msg => (mem, Outcome.panic msg)
    | Outcome.ret out => (store mem dst 0 out, Outcome.ret ())

/-- The method `(c *crypt) Encode` as a state transformer: the state after
the call and what the call returns. -/
def cryptM.Encode (P : Primitives) (st : State) (password salt : GoString) :
    State × Outcome (GoString × Option GoError) :=
  match st.cfg.SaltSeparator, st.cfg.SignerKey with
  | none, _ => (st, Outcome.ret ([], some configError))
  | _, none => (st, Outcome.ret ([], some configError))
  | some saltSeparator, some signerKey =>
    match base64.DecodeStringM st.mem salt with
    | (mem1, _, some err) => ({ st with mem := mem1 }, Outcome.ret ([], some err))
    | (mem1, s, none) =>
      match appendSlice mem1 s (load mem1 saltSeparator) with
      | (mem2, kdfSalt) =>
        match shiftLeft 1 st.cfg.MemCost with
        | Outcome.panic msg => ({ st with mem := mem2 }, Outcome.panic msg)
        | Outcome.ret n =>
          match scrypt.KeyM P mem2 password kdfSalt n st.cfg.Rounds p keyLen with
          | (mem3, Outcome.panic msg) => ({ st with mem := mem3 }, Outcome.panic msg)
          | (mem3, Outcome.ret (_, some err)) =>
            ({ st with mem := mem3 }, Outcome.ret ([], some err))
          | (mem3, Outcome.ret (ck, none)) =>
            match aes.NewCipher (load mem3 ck) with
            | (_, some err) => ({ st with mem := mem3 }, Outcome.ret ([], some err))
            | (none, none) =>
              ({ st with mem := mem3 },
                Outcome.panic "runtime error: invalid memory address or nil pointer dereference")
            | (some block, none) =>
              match makeSlice mem3 (aes.BlockSize + signerKey.len) with
              | (mem4, cipherText) =>
                match cipher.NewCTR block (load mem4 (reslice cipherText 0 aes.BlockSize)) with
                | Outcome.panic msg => ({ st with mem := mem4 }, Outcome.panic msg)
                | Outcome.ret stream =>
                  match cipher.XORKeyStreamM P stream mem4
                      (reslice cipherText aes.BlockSize cipherText.len) signerKey with
                  | (mem5, Outcome.panic msg) => ({ st with mem := mem5 }, Outcome.panic msg)
                  | (mem5, Outcome.ret _) =>
                    ({ st with mem := mem5 },
                      Outcome.ret (base64.EncodeToString
                        (load mem5 (reslice cipherText aes.BlockSize cipherText.len)), none))

/-- A state holding the sample configuration: the signer key `sig` and the
salt separator in two windows of one array. -/
def sampleState : State :=
  { cfg := { SignerKey := some { arr := 0, off := 1, len := 3, cap := 4 }
             SaltSeparator := some { arr := 0, off := 5, len := 1, cap := 1 }
             Rounds := 8, MemCost := 14, P := 1, KeyLen := 32 }
    mem := [[9, 115, 105, 103, 0, 7]] }

/-- The method `(c *crypt) Encode` with the call of `scrypt.Key` taken as a
parameter `key`, any function of its signature that returns or panics: the
body of `Encode` whatever the version of the library computes or checks, and
whether or not it can allocate its working memory. -/
def crypt.EncodeWith (P : Primitives)
    (key : List Byte → List Byte → Int → Int → Int → Int → Outcome (List Byte × Option GoError))
    (c : crypt) (password salt : GoString) : Outcome (GoString × Option GoError) :=
  match c.SaltSeparator, c.SignerKey with
  | none, _ => Outcome.ret ([], some configError)
  | _, none => Outcome.ret ([], some configError)
  | some saltSeparator, some signerKey =>
    match base64.DecodeString salt with
    | (_, some err) => Outcome.ret ([], some err)
    | (s, none) =>
      match shiftLeft 1 c.MemCost with
      | Outcome.panic msg => Outcome.panic msg
      | Outcome.ret n =>
        match key password (s ++ saltSeparator) n c.Rounds p keyLen with
        | Outcome.panic msg => Outcome.panic msg
        | Outcome.ret (_, some err) => Outcome.ret ([], some err)
        | Outcome.ret (ck, none) =>
          match aes.NewCipher ck with
          | (_, some err) => Outcome.ret ([], some err)
          | (none, none) => Outcome.panic "runtime error: invalid memory address or nil pointer dereference"
          | (some block, none) =>
            let cipherText : List Byte := List.replicate (aes.BlockSize + signerKey.length) 0
            match cipher.NewCTR block (cipherText.take aes.BlockSize) with
            | Outcome.panic msg => Outcome.panic msg
            | Outcome.ret stream =>
              match cipher.XORKeyStream P stream (cipherText.drop aes.BlockSize) signerKey with
              | Outcome.panic msg => Outcome.panic msg
              | Outcome.ret out => Outcome.ret (base64.EncodeToString out, none)

/-- A key derivation that fails to allocate its working memory. -/
def panickingKey (_ _ : List Byte) (_ _ _ _ : Int) : Outcome (List Byte × Option GoError) :=
  Outcome.panic "runtime error: makeslice: len out of range"

/-! ## Lemmas on base64 -/

namespace base64

theorem decodeMap_encode (i : Nat) (h : i < 64) : decodeMap (encode i) = i := by
  interval_cases i <;> rfl

theorem decodeMap_padChar : decodeMap padChar = 255 := by decide

theorem isNewline_padChar : isNewline padChar = false := by decide

theorem quantumBytes_three (b0 b1 b2 : Byte) :
    quantumBytes
      [(b0.val * 65536 + b1.val * 256 + b2.val) / 262144 % 64,
        (b0.val * 65536 + b1.val * 256 + b2.val) / 4096 % 64,
        (b0.val * 65536 + b1.val * 256 + b2.val) / 64 % 64,
        (b0.val * 65536 + b1.val * 256 + b2.val) % 64] 4 = [b0, b1, b2] := by
  have h0 := b0.isLt
  have h1 := b1.isLt
  have h2 := b2.isLt
  simp only [quantumBytes, List.getD_cons_zero, List.getD_cons_succ, List.map_cons, List.map_nil]
  simp only [Nat.reduceSub, List.take_succ_cons, List.take_zero, List.cons.injEq, and_true]
  refine ⟨?_, ?_, ?_⟩ <;> apply Fin.ext <;> simp only [Fin.ofNat, Fin.val_mk] <;> omega

end base64

namespace base64

theorem decodeFrom_digit (srcLen : Nat) (i : Nat) (h : i < 64) (rest : List Byte) (si : Nat)
    (dbuf : List Nat) (hd : dbuf.length ≠ 3) :
    decodeFrom srcLen (encode i :: rest) si dbuf
      = decodeFrom srcLen rest (si + 1) (dbuf ++ [i]) := by
  simp [decodeFrom, decodeMap_encode i h, hd]
  omega

theorem decodeFrom_last_digit (srcLen : Nat) (i : Nat) (h : i < 64) (rest : List Byte) (si : Nat)
    (d0 d1 d2 : Nat) :
    decodeFrom srcLen (encode i :: rest) si [d0, d1, d2]
      = (quantumBytes [d0, d1, d2, i] 4 ++ (decodeFrom srcLen rest (si + 1) []).1,
          (decodeFrom srcLen rest (si + 1) []).2) := by
  simp [decodeFrom, decodeMap_encode i h]
  omega

theorem decodeFrom_pad (srcLen : Nat) (rest : List Byte) (si : Nat) (dbuf : List Nat) :
    decodeFrom srcLen (padChar :: rest) si dbuf = decodePadding srcLen rest (si + 1) dbuf := by
  simp [decodeFrom, decodeMap_padChar, isNewline_padChar]

theorem quantumBytes_two (b0 b1 : Byte) :
    quantumBytes
      [(b0.val * 65536 + b1.val * 256) / 262144 % 64,
        (b0.val * 65536 + b1.val * 256) / 4096 % 64,
        (b0.val * 65536 + b1.val * 256) / 64 % 64] 3 = [b0, b1] := by
  have h0 := b0.isLt
  have h1 := b1.isLt
  simp only [quantumBytes, List.getD_cons_zero, List.getD_cons_succ, List.getD_nil,
    List.map_cons, List.map_nil]
  simp only [Nat.reduceSub, List.take_succ_cons, List.take_zero, List.cons.injEq, and_true]
  refine ⟨?_, ?_⟩ <;> apply Fin.ext <;> simp only [Fin.ofNat, Fin.val_mk] <;> omega

theorem quantumBytes_one (b0 : Byte) :
    quantumBytes [(b0.val * 65536) / 262144 % 64, (b0.val * 65536) / 4096 % 64] 2 = [b0] := by
  have h0 := b0.isLt
  simp only [quantumBytes, List.getD_cons_zero, List.getD_cons_succ, List.getD_nil,
    List.map_cons, List.map_nil]
  simp only [Nat.reduceSub, List.take_succ_cons, List.take_zero, List.cons.injEq, and_true]
  apply Fin.ext; simp only [Fin.ofNat, Fin.val_mk]; omega

/-- Decoding an encoding gives the bytes back, without error. -/
theorem decodeFrom_EncodeToString (srcLen : Nat) (data : List Byte) :
    ∀ si, decodeFrom srcLen (EncodeToString data) si [] = (data, none) := by
  induction data using EncodeToString.induct with
  | case1 b0 b1 b2 rest ih =>
    intro si
    simp only [EncodeToString]
    rw [decodeFrom_digit _ _ (Nat.mod_lt _ (by decide)) _ _ _ (by simp),
      decodeFrom_digit _ _ (Nat.mod_lt _ (by decide)) _ _ _ (by simp),
      decodeFrom_digit _ _ (Nat.mod_lt _ (by decide)) _ _ _ (by simp)]
    simp only [List.nil_append, List.cons_append]
    rw [decodeFrom_last_digit _ _ (Nat.mod_lt _ (by decide)), ih, quantumBytes_three]
    rfl
  | case2 b0 b1 =>
    intro si
    simp only [EncodeToString]
    rw [decodeFrom_digit _ _ (Nat.mod_lt _ (by decide)) _ _ _ (by simp),
      decodeFrom_digit _ _ (Nat.mod_lt _ (by decide)) _ _ _ (by simp),
      decodeFrom_digit _ _ (Nat.mod_lt _ (by decide)) _ _ _ (by simp)]
    simp only [List.nil_append, List.cons_append]
    rw [decodeFrom_pad]
    simp [decodePadding, finishPadding, skipNewlines, quantumBytes_two]
  | case3 b0 =>
    intro si
    simp only [EncodeToString]
    rw [decodeFrom_digit _ _ (Nat.mod_lt _ (by decide)) _ _ _ (by simp),
      decodeFrom_digit _ _ (Nat.mod_lt _ (by decide)) _ _ _ (by simp)]
    simp only [List.nil_append, List.cons_append]
    rw [decodeFrom_pad]
    simp [decodePadding, finishPadding, skipNewlines, isNewline_padChar, quantumBytes_one]
  | case4 =>
    intro si
    simp [EncodeToString, decodeFrom]

theorem DecodeString_EncodeToString (data : List Byte) :
    DecodeString (EncodeToString data) = (data, none) :=
  decodeFrom_EncodeToString _ data 0

theorem EncodeToString_injective (a b : List Byte)
    (h : EncodeToString a = EncodeToString b) : a = b := by
  have ha := DecodeString_EncodeToString a
  rw [h, DecodeString_EncodeToString b] at ha
  exact (Prod.mk.inj ha).1.symm

/-- An encoding followed by a byte that is neither of the alphabet nor a
newline: the decoder reports the offset of that byte and keeps the bytes
decoded before it. -/
theorem decodeFrom_EncodeToString_garbage (srcLen : Nat) (c : Byte) (tail : List Byte)
    (hc : decodeMap c = 255) (hn : isNewline c = false) (data : List Byte) :
    ∀ si, decodeFrom srcLen (EncodeToString data ++ c :: tail) si []
      = (data, some (GoError.corruptInput (si + (EncodeToString data).length))) := by
  induction data using EncodeToString.induct with
  | case1 b0 b1 b2 rest ih =>
    intro si
    simp only [EncodeToString, List.cons_append]
    rw [decodeFrom_digit _ _ (Nat.mod_lt _ (by decide)) _ _ _ (by simp),
      decodeFrom_digit _ _ (Nat.mod_lt _ (by decide)) _ _ _ (by simp),
      decodeFrom_digit _ _ (Nat.mod_lt _ (by decide)) _ _ _ (by simp)]
    simp only [List.nil_append, List.cons_append]
    rw [decodeFrom_last_digit _ _ (Nat.mod_lt _ (by decide)), ih, quantumBytes_three]
    simp only [List.cons_append, List.nil_append, List.length_cons, Prod.mk.injEq, true_and,
      Option.some.injEq, GoError.corruptInput.injEq]
    omega
  | case2 b0 b1 =>
    intro si
    simp only [EncodeToString, List.cons_append]
    rw [decodeFrom_digit _ _ (Nat.mod_lt _ (by decide)) _ _ _ (by simp),
      decodeFrom_digit _ _ (Nat.mod_lt _ (by decide)) _ _ _ (by simp),
      decodeFrom_digit _ _ (Nat.mod_lt _ (by decide)) _ _ _ (by simp)]
    simp only [List.nil_append, List.cons_append]
    rw [decodeFrom_pad]
    simp [decodePadding, finishPadding, skipNewlines, hn, quantumBytes_two]
  | case3 b0 =>
    intro si
    simp only [EncodeToString, List.cons_append]
    rw [decodeFrom_digit _ _ (Nat.mod_lt _ (by decide)) _ _ _ (by simp),
      decodeFrom_digit _ _ (Nat.mod_lt _ (by decide)) _ _ _ (by simp)]
    simp only [List.nil_append, List.cons_append]
    rw [decodeFrom_pad]
    simp [decodePadding, finishPadding, skipNewlines, isNewline_padChar, hn, quantumBytes_one]
  | case4 =>
    intro si
    simp [EncodeToString, decodeFrom, hc, hn, decodePadding]

/-- Every error of the decoder is a `CorruptInputError`. -/
theorem decodeFrom_error (srcLen : Nat) (src : List Byte) :
    ∀ si dbuf e, (decodeFrom srcLen src si dbuf).2 = some e → ∃ off, e = GoError.corruptInput off := by
  induction src with
  | nil =>
    intro si dbuf e h
    simp only [decodeFrom] at h
    split at h
    · simp at h
    · exact ⟨_, (Option.some.inj h).symm⟩
  | cons c rest ih =>
    intro si dbuf e h
    simp only [decodeFrom] at h
    split at h
    · split at h
      · exact ih _ _ _ h
      · exact ih _ _ _ h
    · split at h
      · exact ih _ _ _ h
      · split at h
        · exact ⟨_, (Option.some.inj h).symm⟩
        · simp only [decodePadding, finishPadding] at h
          split at h
          · exact ⟨_, (Option.some.inj h).symm⟩
          · split at h
            · split at h
              · exact ⟨_, (Option.some.inj h).symm⟩
              · split at h
                · exact ⟨_, (Option.some.inj h).symm⟩
                · split at h
                  · simp at h
                  · exact ⟨_, (Option.some.inj h).symm⟩
            · split at h
              · simp at h
              · exact ⟨_, (Option.some.inj h).symm⟩

end base64

/-! ## Lemmas on the counter mode -/

namespace cipher

theorem incrementRev_leBytes (w : Nat) : ∀ n, incrementRev (leBytes w n) = leBytes w (n + 1) := by
  induction w with
  | zero => intro n; rfl
  | succ w ih =>
    intro n
    simp only [leBytes, incrementRev]
    by_cases h : n % 256 = 255
    · have h1 : (Fin.ofNat (n % 256) : Byte) + 1 = 0 := by
        rw [h]; decide
      have h2 : (n + 1) % 256 = 0 := by omega
      have h3 : (n + 1) / 256 = n / 256 + 1 := by omega
      rw [if_pos h1, ih, h2, h3]
      rfl
    · have hlt : n % 256 < 255 := by omega
      have h1 : ¬ ((Fin.ofNat (n % 256) : Byte) + 1 = 0) := by
        intro hc
        have := congrArg Fin.val hc
        simp [Fin.ofNat, Fin.val_add] at this
        omega
      have h2 : (n + 1) % 256 = n % 256 + 1 := by omega
      have h3 : (n + 1) / 256 = n / 256 := by omega
      rw [if_neg h1, h2, h3]
      congr 1
      apply Fin.ext
      simp [Fin.ofNat, Fin.val_add]

theorem increment_counterBlock (n : Nat) : increment (counterBlock n) = counterBlock (n + 1) := by
  simp [increment, counterBlock, incrementRev_leBytes]

theorem length_leBytes (w : Nat) : ∀ n, (leBytes w n).length = w := by
  induction w with
  | zero => intro n; rfl
  | succ w ih => intro n; simp [leBytes, ih]

theorem length_counterBlock (n : Nat) : (counterBlock n).length = 16 := by
  simp [counterBlock, length_leBytes]

theorem keyStream_counterBlock (P : Primitives) (K : List Byte) (n : Nat) :
    ∀ k, keyStream P K n (counterBlock k)
      = ((List.range n).map fun i => P.encrypt K (counterBlock (k + i))).flatten := by
  induction n with
  | zero => intro k; simp [keyStream]
  | succ n ih =>
    intro k
    simp only [keyStream, increment_counterBlock, ih, List.range_succ_eq_map, List.map_cons,
      List.flatten_cons, List.map_map, Nat.add_zero]
    congr 2
    apply List.map_congr_left
    intro i _
    simp only [Function.comp_apply]
    congr 2
    omega

theorem zeroIV_eq : (List.replicate 16 (0 : Byte)) = counterBlock 0 := by decide

theorem keyStream_zeroIV (P : Primitives) (K : List Byte) (n : Nat) :
    keyStream P K n (List.replicate 16 0) = ctrKeyStream P K n := by
  rw [zeroIV_eq, keyStream_counterBlock]
  simp [ctrKeyStream]

theorem length_ctrKeyStream (P : Primitives) (K : List Byte) (n : Nat) :
    (ctrKeyStream P K n).length = 16 * n := by
  induction n with
  | zero => simp [ctrKeyStream]
  | succ n ih =>
    simp only [ctrKeyStream] at ih ⊢
    rw [List.range_succ, List.map_append, List.flatten_append, List.length_append, ih]
    simp [P.encrypt_length _ _ (length_counterBlock n)]
    omega

theorem length_xorBytes (P : Primitives) (K signerKey : List Byte) :
    (xorBytes signerKey (ctrKeyStream P K ((signerKey.length + 15) / 16))).length
      = signerKey.length := by
  simp only [xorBytes, List.length_zipWith, length_ctrKeyStream]
  omega

end cipher

/-! ## Lemmas on Encode -/

theorem shiftLeft_one_small (m : Int) (h0 : 0 ≤ m) (h1 : m < 63) :
    shiftLeft 1 m = Outcome.ret (2 ^ m.toNat) := by
  obtain ⟨k, rfl⟩ := Int.eq_ofNat_of_zero_le h0
  have hk : k < 63 := by omega
  simp only [shiftLeft, Int.toNat_ofNat]
  rw [if_neg (by omega), if_neg (by simp [intSize]; omega)]
  congr 1
  interval_cases k <;> rfl

theorem shiftLeft_one_large (m : Int) (h1 : 63 ≤ m) :
    ∃ n, shiftLeft 1 m = Outcome.ret n ∧ n ≤ 1 := by
  by_cases h : 64 ≤ m
  · refine ⟨0, ?_, by decide⟩
    simp only [shiftLeft]
    rw [if_neg (by omega), if_pos (by simp [intSize]; omega)]
  · have : m = 63 := by omega
    subst this
    exact ⟨_, rfl, by decide⟩

theorem checkParams_le_one (n r q : Int) (h : n ≤ 1) :
    scrypt.checkParams n r q = Outcome.ret (some scrypt.errN) := by
  simp [scrypt.checkParams, h]

/-- What `Encode` computes once both slices of the configuration are present. -/
theorem Encode_present (P : Primitives) (c : crypt) (password salt : GoString)
    (signerKey saltSeparator : List Byte)
    (hk : c.SignerKey = some signerKey) (hs : c.SaltSeparator = some saltSeparator) :
    c.Encode P password salt =
      match base64.DecodeString salt with
      | (_, some err) => Outcome.ret ([], some err)
      | (s, none) =>
        match shiftLeft 1 c.MemCost with
        | Outcome.panic msg => Outcome.panic msg
        | Outcome.ret n =>
          match scrypt.checkParams n c.Rounds p with
          | Outcome.panic msg => Outcome.panic msg
          | Outcome.ret (some err) => Outcome.ret ([], some err)
          | Outcome.ret none =>
            Outcome.ret (base64.EncodeToString (xorBytes signerKey (ctrKeyStream P
              (P.derive password (s ++ saltSeparator) n c.Rounds p keyLen)
              ((signerKey.length + 15) / 16))), none) := by
  unfold crypt.Encode
  rw [hk, hs]
  simp only
  rcases hd : base64.DecodeString salt with ⟨s, _ | err⟩
  · simp only
    rcases hsh : shiftLeft 1 c.MemCost with msg | n
    · rfl
    · simp only [scrypt.Key]
      rcases hc : scrypt.checkParams n c.Rounds p with msg | _ | err
      · rfl
      · have hl : (P.derive password (s ++ saltSeparator) n c.Rounds p keyLen).length = 32 := by
          rw [P.derive_length]; rfl
        simp [aes.NewCipher, hl, cipher.NewCTR, cipher.XORKeyStream, aes.BlockSize, xorBytes]
        rw [← cipher.keyStream_zeroIV]
        rfl
      · rfl
  · rfl


/-- What `Encode` returns when a slice of the configuration is `nil`. -/
theorem Encode_absent (P : Primitives) (c : crypt) (password salt : GoString)
    (h : c.SignerKey = none ∨ c.SaltSeparator = none) :
    c.Encode P password salt = Outcome.ret ([], some configError) := by
  unfold crypt.Encode
  rcases hs : c.SaltSeparator with _ | saltSeparator <;>
    rcases hk : c.SignerKey with _ | signerKey
  · rfl
  · rfl
  · rfl
  · rw [hs, hk] at h
    simp at h

/-- The method `Encode` succeeds exactly when both slices are present, the salt decodes,
the memory cost is a shift count that neither panics nor wraps, and the
parameter checks of `scrypt.Key` pass; the hash is then the one of the
specification. -/
theorem Encode_ok_iff (P : Primitives) (c : crypt) (password salt h : GoString) :
    c.Encode P password salt = Outcome.ret (h, none) ↔
      ∃ signerKey saltSeparator s,
        c.SignerKey = some signerKey ∧ c.SaltSeparator = some saltSeparator ∧
        base64.DecodeString salt = (s, none) ∧ 0 ≤ c.MemCost ∧ c.MemCost < 63 ∧
        scrypt.checkParams (2 ^ c.MemCost.toNat) c.Rounds p = Outcome.ret none ∧
        h = specHash P signerKey saltSeparator c.Rounds c.MemCost password s := by
  constructor
  · intro henc
    rcases hk : c.SignerKey with _ | signerKey
    · rw [Encode_absent P c password salt (Or.inl hk)] at henc
      simp at henc
    rcases hs : c.SaltSeparator with _ | saltSeparator
    · rw [Encode_absent P c password salt (Or.inr hs)] at henc
      simp at henc
    rw [Encode_present P c password salt signerKey saltSeparator hk hs] at henc
    rcases hd : base64.DecodeString salt with ⟨s, _ | err⟩
    swap
    · rw [hd] at henc; simp at henc
    rw [hd] at henc
    simp only at henc
    by_cases hneg : c.MemCost < 0
    · simp [shiftLeft, hneg] at henc
    by_cases hbig : 63 ≤ c.MemCost
    · obtain ⟨n, hn, hle⟩ := shiftLeft_one_large c.MemCost hbig
      rw [hn] at henc
      simp only [checkParams_le_one n c.Rounds p hle] at henc
      simp at henc
    rw [shiftLeft_one_small c.MemCost (by omega) (by omega)] at henc
    simp only at henc
    rcases hc : scrypt.checkParams (2 ^ c.MemCost.toNat) c.Rounds p with msg | _ | err
    · rw [hc] at henc; simp at henc
    · rw [hc] at henc
      simp only [Outcome.ret.injEq, Prod.mk.injEq, and_true] at henc
      exact ⟨signerKey, saltSeparator, s, rfl, rfl, rfl, by omega, by omega, rfl, henc.symm⟩
    · rw [hc] at henc; simp at henc
  · rintro ⟨signerKey, saltSeparator, s, hk, hs, hd, h0, h1, hc, rfl⟩
    rw [Encode_present P c password salt signerKey saltSeparator hk hs, hd]
    simp only
    rw [shiftLeft_one_small c.MemCost h0 h1]
    simp only
    rw [hc]
    rfl

theorem checkParams_error (n r q : Int) (e : GoError)
    (h : scrypt.checkParams n r q = Outcome.ret (some e)) :
    e = scrypt.errN ∨ e = scrypt.errTooLarge := by
  unfold scrypt.checkParams at h
  split at h
  · simp at h; exact Or.inl h.symm
  · split at h
    · simp at h; exact Or.inr h.symm
    · split at h
      · simp at h
      · split at h
        · simp at h; exact Or.inr h.symm
        · split at h
          · simp at h; exact Or.inr h.symm
          · split at h
            · simp at h
            · split at h
              · simp at h; exact Or.inr h.symm
              · simp at h

theorem byte_xor_cancel (a x y : Byte) (h : a ^^^ x = a ^^^ y) : x = y := by
  obtain ⟨a, ha⟩ := a
  obtain ⟨x, hx⟩ := x
  obtain ⟨y, hy⟩ := y
  have h1 := congrArg Fin.val h
  have hax : a ^^^ x < 2 ^ 8 := Nat.xor_lt_two_pow (by omega) (by omega)
  have hay : a ^^^ y < 2 ^ 8 := Nat.xor_lt_two_pow (by omega) (by omega)
  change (a ^^^ x) % 256 = (a ^^^ y) % 256 at h1
  rw [Nat.mod_eq_of_lt (by omega), Nat.mod_eq_of_lt (by omega)] at h1
  exact Fin.ext (Nat.xor_right_inj.mp h1)

theorem xorBytes_eq_iff (signerKey : List Byte) :
    ∀ ks1 ks2 : List Byte, signerKey.length ≤ ks1.length → signerKey.length ≤ ks2.length →
      (xorBytes signerKey ks1 = xorBytes signerKey ks2 ↔
        ks1.take signerKey.length = ks2.take signerKey.length) := by
  induction signerKey with
  | nil => intro ks1 ks2 _ _; simp [xorBytes]
  | cons a rest ih =>
    intro ks1 ks2 h1 h2
    cases ks1 with
    | nil => simp at h1
    | cons x xs =>
      cases ks2 with
      | nil => simp at h2
      | cons y ys =>
        have hx : rest.length ≤ xs.length := by simpa using h1
        have hy : rest.length ≤ ys.length := by simpa using h2
        have := ih xs ys hx hy
        simp only [xorBytes] at this
        simp only [xorBytes, List.zipWith_cons_cons, List.cons.injEq, List.length_cons,
          List.take_succ_cons, this]
        constructor
        · rintro ⟨hh, ht⟩
          exact ⟨byte_xor_cancel a x y hh, ht⟩
        · rintro ⟨hh, ht⟩
          exact ⟨by rw [hh], ht⟩

theorem Verify_eq (P : Primitives) (c : crypt) (password passwordHash salt : GoString) :
    c.Verify P password passwordHash salt =
      match c.Encode P password salt with
      | Outcome.panic msg => Outcome.panic msg
      | Outcome.ret (_, some _) => Outcome.ret false
      | Outcome.ret (h, none) => Outcome.ret (decide (h = passwordHash)) := rfl

theorem Verify_of_Encode_ok (P : Primitives) (c : crypt) (password passwordHash salt h : GoString)
    (henc : c.Encode P password salt = Outcome.ret (h, none)) :
    c.Verify P password passwordHash salt = Outcome.ret (decide (h = passwordHash)) := by
  rw [Verify_eq, henc]

theorem Verify_of_Encode_err (P : Primitives) (c : crypt) (password passwordHash salt h : GoString)
    (e : GoError) (henc : c.Encode P password salt = Outcome.ret (h, some e)) :
    c.Verify P password passwordHash salt = Outcome.ret false := by
  rw [Verify_eq, henc]

/-- With a signer key of length zero `Encode` returns the empty string
whenever it succeeds at all. -/
theorem specHash_nil (P : Primitives) (saltSeparator : List Byte) (rounds memCost : Int)
    (password saltBytes : List Byte) :
    specHash P [] saltSeparator rounds memCost password saltBytes = [] := by
  simp [specHash, xorBytes, base64.EncodeToString]

theorem checkParams_sample : scrypt.checkParams (2 ^ (14 : Int).toNat) 8 p = Outcome.ret none := by
  decide

theorem decode_sample_salt : base64.DecodeString (str "c2FsdA==") = (str "salt", none) := by
  decide

/-! ## The claims -/

/-- C1: with signer key and salt separator present and a salt that decodes,
a successful `Encode` returns base64 of the signer key XORed with the AES
counter-mode key stream over the zero IV, under the 32-byte key derived from
the password, the salt bytes followed by the separator, cost `2^memCost`
(the shift count is not negative and does not wrap), block size `rounds`,
parallelism 1 and length 32. -/
theorem Encode_eq_specHash (P : Primitives) (c : crypt) (password salt h : GoString)
    (signerKey saltSeparator saltBytes : List Byte)
    (hk : c.SignerKey = some signerKey) (hs : c.SaltSeparator = some saltSeparator)
    (hsalt : base64.DecodeString salt = (saltBytes, none))
    (henc : c.Encode P password salt = Outcome.ret (h, none)) :
    h = specHash P signerKey saltSeparator c.Rounds c.MemCost password saltBytes ∧
      0 ≤ c.MemCost ∧
      (P.derive password (saltBytes ++ saltSeparator) (2 ^ c.MemCost.toNat) c.Rounds 1 32).length
        = 32 := by
  obtain ⟨sk, sep, s, hk2, hs2, hd, h0, _, _, hh⟩ := (Encode_ok_iff P c password salt h).mp henc
  rw [hk] at hk2
  rw [hs] at hs2
  rw [hsalt] at hd
  cases hk2
  cases hs2
  cases hd
  exact ⟨hh, h0, by rw [P.derive_length]; rfl⟩

theorem Encode_eq_specHash_witness :
    sampleConfig.Encode samplePrimitives (str "secretPass") (str "c2FsdA==")
        = Outcome.ret (str "qrC+", none) ∧
      (str "qrC+" = specHash samplePrimitives (str "sig") [7] sampleConfig.Rounds
          sampleConfig.MemCost (str "secretPass") (str "salt") ∧
        0 ≤ sampleConfig.MemCost ∧
        (samplePrimitives.derive (str "secretPass") (str "salt" ++ [7])
          (2 ^ sampleConfig.MemCost.toNat) sampleConfig.Rounds 1 32).length = 32) :=
  ⟨by decide,
    Encode_eq_specHash samplePrimitives sampleConfig (str "secretPass") (str "c2FsdA==")
      (str "qrC+") (str "sig") [7] (str "salt") (by decide) (by decide) (by decide) (by decide)⟩


/-- C2 fails as stated: a configuration whose signer key is empty but not
`nil` passes the configuration check; `Encode` succeeds with the empty hash
and `Verify` accepts it. -/
theorem empty_signerKey_passes_check :
    len emptyKeyConfig.SignerKey = 0 ∧
      (∀ P : Primitives, emptyKeyConfig.Encode P (str "secretPass") (str "c2FsdA==")
        = Outcome.ret ([], none)) ∧
      (∀ P : Primitives, emptyKeyConfig.Verify P (str "secretPass") [] (str "c2FsdA==")
        = Outcome.ret true) := by
  have henc : ∀ P : Primitives, emptyKeyConfig.Encode P (str "secretPass") (str "c2FsdA==")
      = Outcome.ret ([], none) := by
    intro P
    rw [Encode_ok_iff]
    exact ⟨[], [7], str "salt", rfl, rfl, decode_sample_salt, by decide, by decide,
      checkParams_sample, (specHash_nil P _ _ _ _ _).symm⟩
  refine ⟨rfl, henc, ?_⟩
  intro P
  rw [Verify_of_Encode_ok P _ _ _ _ _ (henc P)]
  rfl

/-- C2, amended: when the signer key or the salt separator is `nil`, `Encode`
returns the error "config error" for every password and salt, malformed
salts included and whatever the primitives compute, and `Verify` returns
false. -/
theorem Encode_nil_config (P : Primitives) (c : crypt) (password passwordHash salt : GoString)
    (h : c.SignerKey = none ∨ c.SaltSeparator = none) :
    c.Encode P password salt = Outcome.ret ([], some (GoError.errorString "config error")) ∧
      c.Verify P password passwordHash salt = Outcome.ret false :=
  ⟨Encode_absent P c password salt h,
    Verify_of_Encode_err P c password passwordHash salt [] _ (Encode_absent P c password salt h)⟩

theorem Encode_nil_config_witness :
    (nilKeyConfig.SignerKey = none ∨ nilKeyConfig.SaltSeparator = none) ∧
      (nilKeyConfig.Encode samplePrimitives (str "secretPass") (str "not base64")
          = Outcome.ret ([], some (GoError.errorString "config error")) ∧
        nilKeyConfig.Verify samplePrimitives (str "secretPass") (str "qrC+") (str "not base64")
          = Outcome.ret false) :=
  ⟨Or.inl rfl,
    Encode_nil_config samplePrimitives nilKeyConfig (str "secretPass") (str "qrC+")
      (str "not base64") (Or.inl rfl)⟩

/-- C3: `Verify` returns true exactly when `Encode` succeeds with a hash equal
to the candidate, and returns false whenever `Encode` returns an error. -/
theorem Verify_true_iff (P : Primitives) (c : crypt) (password passwordHash salt : GoString) :
    (c.Verify P password passwordHash salt = Outcome.ret true ↔
        ∃ h, c.Encode P password salt = Outcome.ret (h, none) ∧ h = passwordHash) ∧
      (∀ h e, c.Encode P password salt = Outcome.ret (h, some e) →
        c.Verify P password passwordHash salt = Outcome.ret false) := by
  refine ⟨?_, fun h e henc => Verify_of_Encode_err P c password passwordHash salt h e henc⟩
  rw [Verify_eq]
  rcases henc : c.Encode P password salt with msg | ⟨h, _ | e⟩
  · simp
  · simp
  · simp

/-- C4 fails as stated: on the zero configuration `Encode` returns the empty
string with the configuration error, and `Verify` rejects that string. -/
theorem roundtrip_fails_on_zero_config :
    (∀ P : Primitives, ({} : crypt).Encode P (str "secretPass") (str "c2FsdA==")
        = Outcome.ret ([], some configError)) ∧
      (∀ P : Primitives, ({} : crypt).Verify P (str "secretPass") [] (str "c2FsdA==")
        = Outcome.ret false) :=
  ⟨fun P => Encode_absent P _ _ _ (Or.inl rfl),
    fun P => Verify_of_Encode_err P _ _ _ _ [] _ (Encode_absent P _ _ _ (Or.inl rfl))⟩

/-- C4, amended: whenever `Encode` succeeds, `Verify` accepts the hash it
returned for the same password, salt and configuration. -/
theorem Verify_Encode_roundtrip (P : Primitives) (c : crypt) (password salt h : GoString)
    (henc : c.Encode P password salt = Outcome.ret (h, none)) :
    c.Verify P password h salt = Outcome.ret true := by
  rw [Verify_of_Encode_ok P c password h salt h henc]
  simp

theorem Verify_Encode_roundtrip_witness :
    sampleConfig.Encode samplePrimitives (str "secretPass") (str "c2FsdA==")
        = Outcome.ret (str "qrC+", none) ∧
      sampleConfig.Verify samplePrimitives (str "secretPass") (str "qrC+") (str "c2FsdA==")
        = Outcome.ret true :=
  ⟨by decide,
    Verify_Encode_roundtrip samplePrimitives sampleConfig (str "secretPass") (str "c2FsdA==")
      (str "qrC+") (by decide)⟩


/-- C5 fails as stated: under a signer key of length zero (here the one `New`
decodes from the empty string) two different passwords get the same hash,
and `Verify` accepts the one password for the hash of the other. -/
theorem wrong_password_accepted :
    str "secretPass" ≠ str "otherPass" ∧
      (∀ P : Primitives, (New [] (str "Bw==") 8 14).Encode P (str "otherPass") (str "c2FsdA==")
        = Outcome.ret ([], none)) ∧
      (∀ P : Primitives, (New [] (str "Bw==") 8 14).Verify P (str "secretPass") []
        (str "c2FsdA==") = Outcome.ret true) := by
  have henc : ∀ (P : Primitives) (password : GoString),
      (New [] (str "Bw==") 8 14).Encode P password (str "c2FsdA==") = Outcome.ret ([], none) := by
    intro P password
    rw [Encode_ok_iff]
    exact ⟨[], [7], str "salt", by decide, by decide, decode_sample_salt, by decide, by decide,
      checkParams_sample, (specHash_nil P _ _ _ _ _).symm⟩
  refine ⟨by decide, fun P => henc P _, ?_⟩
  intro P
  rw [Verify_of_Encode_ok P _ _ _ _ _ (henc P _)]
  rfl

/-- C5, amended: when `Encode` succeeds for passwordB with hash hB, `Verify`
of passwordA against hB returns false exactly when the key streams derived
from the two passwords differ within the first `len(signerKey)` bytes, and
true exactly when they agree there (as they always do for a signer key of
length zero). -/
theorem Verify_other_password (P : Primitives) (c : crypt) (passwordA passwordB salt hB : GoString)
    (signerKey saltSeparator saltBytes : List Byte)
    (hk : c.SignerKey = some signerKey) (hs : c.SaltSeparator = some saltSeparator)
    (hsalt : base64.DecodeString salt = (saltBytes, none))
    (henc : c.Encode P passwordB salt = Outcome.ret (hB, none)) :
    (c.Verify P passwordA hB salt = Outcome.ret false ↔
        streamHead P saltSeparator c.Rounds c.MemCost signerKey.length passwordA saltBytes
          ≠ streamHead P saltSeparator c.Rounds c.MemCost signerKey.length passwordB saltBytes) ∧
      (c.Verify P passwordA hB salt = Outcome.ret true ↔
        streamHead P saltSeparator c.Rounds c.MemCost signerKey.length passwordA saltBytes
          = streamHead P saltSeparator c.Rounds c.MemCost signerKey.length passwordB saltBytes) := by
  obtain ⟨sk, sep, s, hk2, hs2, hd, h0, h1, hc, hh⟩ := (Encode_ok_iff P c passwordB salt hB).mp henc
  rw [hk] at hk2
  rw [hs] at hs2
  rw [hsalt] at hd
  cases hk2
  cases hs2
  cases hd
  have hA : c.Encode P passwordA salt
      = Outcome.ret (specHash P signerKey saltSeparator c.Rounds c.MemCost passwordA saltBytes,
          none) :=
    (Encode_ok_iff P c passwordA salt _).mpr
      ⟨signerKey, saltSeparator, saltBytes, hk, hs, hsalt, h0, h1, hc, rfl⟩
  rw [Verify_of_Encode_ok P c passwordA hB salt _ hA, hh]
  have key : specHash P signerKey saltSeparator c.Rounds c.MemCost passwordA saltBytes
        = specHash P signerKey saltSeparator c.Rounds c.MemCost passwordB saltBytes ↔
      streamHead P saltSeparator c.Rounds c.MemCost signerKey.length passwordA saltBytes
        = streamHead P saltSeparator c.Rounds c.MemCost signerKey.length passwordB saltBytes := by
    simp only [specHash, streamHead]
    rw [← xorBytes_eq_iff signerKey _ _ (by rw [cipher.length_ctrKeyStream]; omega)
      (by rw [cipher.length_ctrKeyStream]; omega)]
    constructor
    · intro h
      exact base64.EncodeToString_injective _ _ h
    · intro h
      rw [h]
  constructor
  · rw [Ne, ← key]
    simp
  · rw [← key]
    simp

theorem Verify_other_password_witness :
    sampleConfig.Encode samplePrimitives (str "otherPass") (str "c2FsdA==")
        = Outcome.ret (str "BhwS", none) ∧
      ((sampleConfig.Verify samplePrimitives (str "secretPass") (str "BhwS") (str "c2FsdA==")
            = Outcome.ret false ↔
          streamHead samplePrimitives [7] sampleConfig.Rounds sampleConfig.MemCost
              (str "sig").length (str "secretPass") (str "salt")
            ≠ streamHead samplePrimitives [7] sampleConfig.Rounds sampleConfig.MemCost
              (str "sig").length (str "otherPass") (str "salt")) ∧
        (sampleConfig.Verify samplePrimitives (str "secretPass") (str "BhwS") (str "c2FsdA==")
            = Outcome.ret true ↔
          streamHead samplePrimitives [7] sampleConfig.Rounds sampleConfig.MemCost
              (str "sig").length (str "secretPass") (str "salt")
            = streamHead samplePrimitives [7] sampleConfig.Rounds sampleConfig.MemCost
              (str "sig").length (str "otherPass") (str "salt"))) :=
  ⟨by decide,
    Verify_other_password samplePrimitives sampleConfig (str "secretPass") (str "otherPass")
      (str "c2FsdA==") (str "BhwS") (str "sig") [7] (str "salt") (by decide) (by decide)
      (by decide) (by decide)⟩


/-- C6: with signer key and salt separator present, a salt that the base64
decoder rejects makes `Encode` return that decoding error, a
`CorruptInputError`, with the empty string, whatever rounds and memCost are;
it does not panic. -/
theorem Encode_malformed_salt (P : Primitives) (c : crypt) (password salt : GoString)
    (signerKey saltSeparator : List Byte) (e : GoError)
    (hk : c.SignerKey = some signerKey) (hs : c.SaltSeparator = some saltSeparator)
    (hsalt : (base64.DecodeString salt).2 = some e) :
    c.Encode P password salt = Outcome.ret ([], some e) ∧ ∃ off, e = GoError.corruptInput off := by
  refine ⟨?_, base64.decodeFrom_error _ _ _ _ _ hsalt⟩
  rw [Encode_present P c password salt signerKey saltSeparator hk hs]
  rcases hd : base64.DecodeString salt with ⟨s, _ | err⟩
  · rw [hd] at hsalt
    simp at hsalt
  · rw [hd] at hsalt
    cases hsalt
    rfl

theorem Encode_malformed_salt_witness :
    (base64.DecodeString (str "c2FsdA")).2 = some (GoError.corruptInput 4) ∧
      (badCostConfig.Encode samplePrimitives (str "secretPass") (str "c2FsdA")
          = Outcome.ret ([], some (GoError.corruptInput 4)) ∧
        ∃ off, GoError.corruptInput 4 = GoError.corruptInput off) :=
  ⟨by decide,
    Encode_malformed_salt samplePrimitives badCostConfig (str "secretPass") (str "c2FsdA")
      (str "sig") [7] (GoError.corruptInput 4) rfl rfl (by decide)⟩

/-- C7: whenever `Encode` succeeds, the hash it returns decodes from base64
without error to as many bytes as the signer key has. -/
theorem Encode_hash_length (P : Primitives) (c : crypt) (password salt h : GoString)
    (henc : c.Encode P password salt = Outcome.ret (h, none)) :
    ∃ bytes, base64.DecodeString h = (bytes, none) ∧ bytes.length = len c.SignerKey := by
  obtain ⟨sk, sep, s, hk, _, _, _, _, _, hh⟩ := (Encode_ok_iff P c password salt h).mp henc
  subst hh
  refine ⟨_, base64.DecodeString_EncodeToString _, ?_⟩
  rw [hk]
  exact cipher.length_xorBytes P _ sk

theorem Encode_hash_length_witness :
    sampleConfig.Encode samplePrimitives (str "secretPass") (str "c2FsdA==")
        = Outcome.ret (str "qrC+", none) ∧
      ∃ bytes, base64.DecodeString (str "qrC+") = (bytes, none) ∧
        bytes.length = len sampleConfig.SignerKey :=
  ⟨by decide,
    Encode_hash_length samplePrimitives sampleConfig (str "secretPass") (str "c2FsdA==")
      (str "qrC+") (by decide)⟩

/-- C8: at start-up `Default` points to the zero configuration, so the
package-level `Encode` returns the error "config error" and the package-level
`Verify` returns false, for every password, salt and candidate hash; neither
panics. -/
theorem Default_fails_config_check (P : Primitives) (password passwordHash salt : GoString) :
    startup.Default = some {} ∧
      Encode P startup password salt
        = Outcome.ret ([], some (GoError.errorString "config error")) ∧
      Verify P startup password passwordHash salt = Outcome.ret false :=
  ⟨rfl, Encode_absent P {} password salt (Or.inl rfl),
    Verify_of_Encode_err P {} password passwordHash salt [] _
      (Encode_absent P {} password salt (Or.inl rfl))⟩

/-- C9 fails as stated: the string `!` is not valid base64, yet on the
configuration `New` builds from it as signer key `Encode` passes the
configuration check and succeeds with the empty hash, and `Verify` accepts
that hash. -/
theorem New_invalid_passes_check :
    (base64.DecodeString (str "!")).2 ≠ none ∧
      (∀ P : Primitives, (New (str "!") (str "Bw==") 8 14).Encode P (str "secretPass")
        (str "c2FsdA==") = Outcome.ret ([], none)) ∧
      (∀ P : Primitives, (New (str "!") (str "Bw==") 8 14).Verify P (str "secretPass") []
        (str "c2FsdA==") = Outcome.ret true) := by
  have henc : ∀ P : Primitives, (New (str "!") (str "Bw==") 8 14).Encode P (str "secretPass")
      (str "c2FsdA==") = Outcome.ret ([], none) := by
    intro P
    rw [Encode_ok_iff]
    exact ⟨[], [7], str "salt", by decide, by decide, decode_sample_salt, by decide, by decide,
      checkParams_sample, (specHash_nil P _ _ _ _ _).symm⟩
  refine ⟨by decide, henc, ?_⟩
  intro P
  rw [Verify_of_Encode_ok P _ _ _ _ _ (henc P)]
  rfl

/-- C9, amended: the configuration `New` builds, from valid base64 or not,
has both slices present, so `Encode` on it never returns the error
"config error", for any password and salt. -/
theorem New_never_config_error (P : Primitives) (signerKey saltSeparator : GoString)
    (rounds memCost : Int) (password salt h : GoString) :
    (New signerKey saltSeparator rounds memCost).SignerKey ≠ none ∧
      (New signerKey saltSeparator rounds memCost).SaltSeparator ≠ none ∧
      (New signerKey saltSeparator rounds memCost).Encode P password salt
        ≠ Outcome.ret (h, some (GoError.errorString "config error")) := by
  refine ⟨by simp [New], by simp [New], ?_⟩
  rw [Encode_present P _ password salt _ _ rfl rfl]
  intro hcontra
  rcases hd : base64.DecodeString salt with ⟨s, _ | err⟩
  · rw [hd] at hcontra
    simp only at hcontra
    rcases hsh : shiftLeft 1 (New signerKey saltSeparator rounds memCost).MemCost with msg | n
    · rw [hsh] at hcontra
      simp at hcontra
    · rw [hsh] at hcontra
      simp only at hcontra
      rcases hc : scrypt.checkParams n (New signerKey saltSeparator rounds memCost).Rounds p
        with msg | _ | err
      · rw [hc] at hcontra
        simp at hcontra
      · rw [hc] at hcontra
        simp at hcontra
      · rw [hc] at hcontra
        simp only [Outcome.ret.injEq, Prod.mk.injEq, Option.some.injEq] at hcontra
        have herr := checkParams_error _ _ _ _ hc
        rw [hcontra.2] at herr
        revert herr
        decide
  · rw [hd] at hcontra
    simp only [Outcome.ret.injEq, Prod.mk.injEq, Option.some.injEq] at hcontra
    obtain ⟨off, hoff⟩ := base64.decodeFrom_error _ _ _ _ _
      (show (base64.DecodeString salt).2 = some err by rw [hd])
    rw [hcontra.2] at hoff
    cases hoff

/-! ## The decoder on rejected input -/

namespace base64

/-- The newlines `skipNewlines` passes over are a list in front of what it
returns, and it passes over them whatever follows. -/
theorem skipNewlines_split (a : List Byte) :
    ∀ si r si2, skipNewlines a si = (r, si2) →
      ∃ nl, a = nl ++ r ∧ ∀ t si3, skipNewlines (nl ++ t) si3 = skipNewlines t (si3 + nl.length) := by
  induction a with
  | nil =>
    intro si r si2 h
    simp only [skipNewlines, Prod.mk.injEq] at h
    exact ⟨[], by simp [← h.1], fun t si3 => by simp⟩
  | cons c rest ih =>
    intro si r si2 h
    simp only [skipNewlines] at h
    split at h
    · rename_i hc
      obtain ⟨nl, h1, h2⟩ := ih _ _ _ h
      refine ⟨c :: nl, by rw [List.cons_append, ← h1], ?_⟩
      intro t si3
      have h3 := h2 t (si3 + 1)
      rw [show si3 + 1 + nl.length = si3 + (c :: nl).length by
        rw [List.length_cons]; omega] at h3
      rw [← h3]
      show skipNewlines (c :: (nl ++ t)) si3 = _
      simp only [skipNewlines, hc, if_true]
    · simp only [Prod.mk.injEq] at h
      exact ⟨[], by simp [← h.1], fun t si3 => by simp⟩

theorem skipNewlines_append (a b : List Byte) :
    ∀ si, (skipNewlines a si).1 ≠ [] →
      skipNewlines (a ++ b) si = ((skipNewlines a si).1 ++ b, (skipNewlines a si).2) := by
  induction a with
  | nil => intro si h; simp [skipNewlines] at h
  | cons c rest ih =>
    intro si h
    simp only [skipNewlines, List.cons_append] at h ⊢
    split
    · rename_i hc
      rw [if_pos hc] at h
      exact ih _ h
    · rfl

theorem finishPadding_fst (rest : List Byte) (si : Nat) (dbuf : List Nat) :
    (finishPadding rest si dbuf).1 = quantumBytes dbuf dbuf.length := rfl

theorem finishPadding_nil (si : Nat) (dbuf : List Nat) :
    finishPadding [] si dbuf = (quantumBytes dbuf dbuf.length, none) := by
  simp [finishPadding, skipNewlines]

/-- A rejected input: the bytes written are none, or the decoding of a head of
the input that is accepted. -/
theorem decodeFrom_rejected_head (srcLen : Nat) (src : List Byte) :
    ∀ si dbuf out e, decodeFrom srcLen src si dbuf = (out, some e) →
      out = [] ∨ ∃ pre suf, src = pre ++ suf ∧ ∀ L, decodeFrom L pre si dbuf = (out, none) := by
  induction src with
  | nil =>
    intro si dbuf out e h
    simp only [decodeFrom] at h
    split at h
    · simp at h
    · simp only [Prod.mk.injEq] at h
      exact Or.inl h.1.symm
  | cons c rest ih =>
    intro si dbuf out e h
    simp only [decodeFrom] at h
    split at h
    · rename_i hdig
      split at h
      · rename_i hlen
        simp only [Prod.mk.injEq] at h
        obtain ⟨hout, herr⟩ := h
        right
        rcases ih (si + 1) [] (decodeFrom srcLen rest (si + 1) []).1 e
          (by rw [← herr]) with h0 | ⟨pre, suf, hsplit, hpre⟩
        · refine ⟨[c], rest, rfl, ?_⟩
          intro L
          simp only [decodeFrom, hdig, hlen, if_true, ne_eq, not_false_eq_true]
          rw [← hout, h0]
          simp
        · refine ⟨c :: pre, suf, by rw [hsplit]; rfl, ?_⟩
          intro L
          simp only [decodeFrom, hdig, hlen, if_true, ne_eq, not_false_eq_true, hpre L]
          rw [← hout]
      · rename_i hlen
        rcases ih _ _ _ _ h with h0 | ⟨pre, suf, hsplit, hpre⟩
        · exact Or.inl h0
        · refine Or.inr ⟨c :: pre, suf, by rw [hsplit]; rfl, ?_⟩
          intro L
          simp only [decodeFrom, hdig, hlen, if_true, if_false, ne_eq, not_false_eq_true, hpre L]
    · rename_i hdig
      split at h
      · rename_i hnl
        rcases ih _ _ _ _ h with h0 | ⟨pre, suf, hsplit, hpre⟩
        · exact Or.inl h0
        · refine Or.inr ⟨c :: pre, suf, by rw [hsplit]; rfl, ?_⟩
          intro L
          simp only [decodeFrom, hdig, hnl, if_true, if_false, hpre L]
      · split at h
        · simp only [Prod.mk.injEq] at h
          exact Or.inl h.1.symm
        · rename_i hnl hpad
          have hcp : c = padChar := by
            by_contra hne
            exact hpad hne
          subst hcp
          simp only [decodePadding] at h
          split at h
          · simp only [Prod.mk.injEq] at h
            exact Or.inl h.1.symm
          · rename_i hlt
            split at h
            · rename_i h2
              split at h
              · simp only [Prod.mk.injEq] at h
                exact Or.inl h.1.symm
              · rename_i c2 rest2 si2 hskip
                split at h
                · simp only [Prod.mk.injEq] at h
                  exact Or.inl h.1.symm
                · rename_i hc2
                  have hc2p : c2 = padChar := by
                    by_contra hne
                    exact hc2 hne
                  subst hc2p
                  obtain ⟨nl, hsplit, hnlskip⟩ := skipNewlines_split rest _ _ _ hskip
                  have hout : out = quantumBytes dbuf dbuf.length := by
                    have := congrArg Prod.fst h
                    rw [finishPadding_fst] at this
                    exact this.symm
                  refine Or.inr ⟨padChar :: (nl ++ [padChar]), rest2, ?_, ?_⟩
                  · rw [hsplit]
                    simp
                  · intro L
                    rw [decodeFrom_pad]
                    simp only [decodePadding, hlt, h2, if_true, if_false]
                    rw [hnlskip]
                    simp only [skipNewlines, isNewline_padChar, Bool.false_eq_true, if_false,
                      ne_eq, not_true_eq_false, finishPadding_nil, hout]
                    simp
            · rename_i h2
              have hout : out = quantumBytes dbuf dbuf.length := by
                have := congrArg Prod.fst h
                rw [finishPadding_fst] at this
                exact this.symm
              refine Or.inr ⟨[padChar], rest, rfl, ?_⟩
              intro L
              rw [decodeFrom_pad]
              simp only [decodePadding, hlt, h2, if_false, finishPadding_nil, hout]

end base64

namespace base64

/-- The decoding of an accepted head of the input starts the bytes written for
the whole input. -/
theorem decodeFrom_accepted_head (L1 : Nat) (pre : List Byte) :
    ∀ si dbuf out1, decodeFrom L1 pre si dbuf = (out1, none) →
      ∀ L2 suf, ∃ more, (decodeFrom L2 (pre ++ suf) si dbuf).1 = out1 ++ more := by
  induction pre with
  | nil =>
    intro si dbuf out1 h L2 suf
    simp only [decodeFrom] at h
    split at h
    · simp only [Prod.mk.injEq, and_true] at h
      exact ⟨_, by rw [← h]; rfl⟩
    · simp at h
  | cons c rest ih =>
    intro si dbuf out1 h L2 suf
    rw [List.cons_append]
    simp only [decodeFrom] at h ⊢
    split at h
    · rename_i hdig
      rw [if_pos hdig]
      split at h
      · rename_i hlen
        rw [if_pos hlen]
        simp only [Prod.mk.injEq] at h
        obtain ⟨hout, herr⟩ := h
        obtain ⟨more, hmore⟩ := ih (si + 1) [] (decodeFrom L1 rest (si + 1) []).1
          (by rw [← herr]) L2 suf
        exact ⟨more, by simp only [hmore, ← hout, List.append_assoc]⟩
      · rename_i hlen
        rw [if_neg hlen]
        exact ih _ _ _ h L2 suf
    · rename_i hdig
      rw [if_neg hdig]
      split at h
      · rename_i hnl
        rw [if_pos hnl]
        exact ih _ _ _ h L2 suf
      · rename_i hnl
        rw [if_neg hnl]
        split at h
        · simp at h
        · rename_i hpad
          rw [if_neg hpad]
          simp only [decodePadding] at h ⊢
          split at h
          · simp at h
          · rename_i hlt
            rw [if_neg hlt]
            split at h
            · rename_i h2
              rw [if_pos h2]
              split at h
              · simp at h
              · rename_i c2 rest2 si2 hskip
                split at h
                · simp at h
                · rename_i hc2
                  have hne : (skipNewlines rest (si + 1)).1 ≠ [] := by
                    rw [hskip]; simp
                  rw [skipNewlines_append rest suf _ hne, hskip]
                  simp only [List.cons_append]
                  rw [if_neg hc2, finishPadding_fst]
                  have := congrArg Prod.fst h
                  rw [finishPadding_fst] at this
                  exact ⟨[], by simp [this]⟩
            · rename_i h2
              rw [if_neg h2, finishPadding_fst]
              have := congrArg Prod.fst h
              rw [finishPadding_fst] at this
              exact ⟨[], by simp [this]⟩

/-- The bytes `DecodeString` returns with an error are the decoding of an
accepted head of the string, and no accepted head decodes to bytes that do
not start them. -/
theorem DecodeString_rejected (s : GoString) (out : List Byte) (e : GoError)
    (h : DecodeString s = (out, some e)) :
    (∃ pre suf, s = pre ++ suf ∧ DecodeString pre = (out, none)) ∧
      ∀ pre suf out1, s = pre ++ suf → DecodeString pre = (out1, none) →
        ∃ more, out = out1 ++ more := by
  constructor
  · rcases decodeFrom_rejected_head _ _ _ _ _ _ h with h0 | ⟨pre, suf, hsplit, hpre⟩
    · exact ⟨[], s, rfl, by rw [h0]; rfl⟩
    · exact ⟨pre, suf, hsplit, hpre _⟩
  · intro pre suf out1 hsplit hpre
    obtain ⟨more, hmore⟩ := decodeFrom_accepted_head _ pre 0 [] out1 hpre s.length suf
    rw [← hsplit] at hmore
    have : (DecodeString s).1 = out1 ++ more := hmore
    rw [h] at this
    exact ⟨more, this⟩

end base64

/-- C10 fails as stated: for a valid group followed by an illegal character
`New` keeps the three bytes decoded before the error. -/
theorem New_keeps_decoded_group :
    (base64.DecodeString (str "AAAA!")).2 ≠ none ∧
      (New (str "AAAA!") (str "Bw==") 8 14).SignerKey = some [0, 0, 0] ∧
      (New (str "c2ln") (str "AAAA!") 8 14).SaltSeparator = some [0, 0, 0] := by
  decide

/-- C10, amended: `New` returns no error, and for every string the decoder
rejects the field is present and holds the bytes decoded before the corrupt
input: the decoding of an accepted head of the string, which the decoding of
every accepted head of the string starts, so the longest such decoding.  In
particular the encoding of any byte sequence followed by a byte that is
neither of the alphabet nor a newline (and by anything after it) is rejected
and the field is that byte sequence. -/
theorem New_invalid_keeps_decoded (s other : GoString) (rounds memCost : Int) (e : GoError)
    (hrej : (base64.DecodeString s).2 = some e) :
    (∃ out, (New s other rounds memCost).SignerKey = some out ∧
        (New other s rounds memCost).SaltSeparator = some out ∧
        (∃ pre suf, s = pre ++ suf ∧ base64.DecodeString pre = (out, none)) ∧
        ∀ pre suf out1, s = pre ++ suf → base64.DecodeString pre = (out1, none) →
          ∃ more, out = out1 ++ more) ∧
      ∀ (data : List Byte) (c : Byte) (tail : GoString),
        base64.decodeMap c = 255 → base64.isNewline c = false →
          (base64.DecodeString (base64.EncodeToString data ++ c :: tail)).2 ≠ none ∧
            (New (base64.EncodeToString data ++ c :: tail) other rounds memCost).SignerKey
              = some data ∧
            (New other (base64.EncodeToString data ++ c :: tail) rounds memCost).SaltSeparator
              = some data := by
  constructor
  · have hd : base64.DecodeString s = ((base64.DecodeString s).1, some e) := by
      rw [← hrej]
    obtain ⟨h1, h2⟩ := base64.DecodeString_rejected s _ e hd
    exact ⟨(base64.DecodeString s).1, rfl, rfl, h1, h2⟩
  · intro data c tail hc hn
    have h : base64.DecodeString (base64.EncodeToString data ++ c :: tail)
        = (data, some (GoError.corruptInput (0 + (base64.EncodeToString data).length))) :=
      base64.decodeFrom_EncodeToString_garbage _ c tail hc hn data 0
    refine ⟨?_, ?_, ?_⟩
    · rw [h]; simp
    · simp only [New, h]
    · simp only [New, h]

theorem New_invalid_keeps_decoded_witness :
    (base64.DecodeString (str "c2FsdA")).2 = some (GoError.corruptInput 4) ∧
      ((∃ out, (New (str "c2FsdA") (str "Bw==") 8 14).SignerKey = some out ∧
          (New (str "Bw==") (str "c2FsdA") 8 14).SaltSeparator = some out ∧
          (∃ pre suf, str "c2FsdA" = pre ++ suf ∧ base64.DecodeString pre = (out, none)) ∧
          ∀ pre suf out1, str "c2FsdA" = pre ++ suf → base64.DecodeString pre = (out1, none) →
            ∃ more, out = out1 ++ more) ∧
        ∀ (data : List Byte) (c : Byte) (tail : GoString),
          base64.decodeMap c = 255 → base64.isNewline c = false →
            (base64.DecodeString (base64.EncodeToString data ++ c :: tail)).2 ≠ none ∧
              (New (base64.EncodeToString data ++ c :: tail) (str "Bw==") 8 14).SignerKey
                = some data ∧
              (New (str "Bw==") (base64.EncodeToString data ++ c :: tail) 8 14).SaltSeparator
                = some data) :=
  ⟨by decide,
    New_invalid_keeps_decoded (str "c2FsdA") (str "Bw==") 8 14 (GoError.corruptInput 4)
      (by decide)⟩


/-! ## Further lemmas on Encode -/

/-- The errors `Encode` can return, each with the empty string. -/
theorem Encode_error_cases (P : Primitives) (c : crypt) (password salt h : GoString) (e : GoError)
    (henc : c.Encode P password salt = Outcome.ret (h, some e)) :
    h = [] ∧ (e = configError ∨ (∃ off, e = GoError.corruptInput off) ∨ e = scrypt.errN ∨
      e = scrypt.errTooLarge) := by
  rcases hk : c.SignerKey with _ | signerKey
  · rw [Encode_absent P c password salt (Or.inl hk)] at henc
    simp only [Outcome.ret.injEq, Prod.mk.injEq, Option.some.injEq] at henc
    exact ⟨henc.1.symm, Or.inl henc.2.symm⟩
  rcases hs : c.SaltSeparator with _ | saltSeparator
  · rw [Encode_absent P c password salt (Or.inr hs)] at henc
    simp only [Outcome.ret.injEq, Prod.mk.injEq, Option.some.injEq] at henc
    exact ⟨henc.1.symm, Or.inl henc.2.symm⟩
  rw [Encode_present P c password salt signerKey saltSeparator hk hs] at henc
  rcases hd : base64.DecodeString salt with ⟨s, _ | err⟩
  · rw [hd] at henc
    simp only at henc
    rcases hsh : shiftLeft 1 c.MemCost with msg | n
    · rw [hsh] at henc
      simp at henc
    · rw [hsh] at henc
      simp only at henc
      rcases hc : scrypt.checkParams n c.Rounds p with msg | _ | err
      · rw [hc] at henc
        simp at henc
      · rw [hc] at henc
        simp at henc
      · rw [hc] at henc
        simp only [Outcome.ret.injEq, Prod.mk.injEq, Option.some.injEq] at henc
        have herr := checkParams_error _ _ _ _ hc
        rw [henc.2] at herr
        exact ⟨henc.1.symm, Or.inr (Or.inr herr)⟩
  · rw [hd] at henc
    simp only [Outcome.ret.injEq, Prod.mk.injEq, Option.some.injEq] at henc
    obtain ⟨off, hoff⟩ := base64.decodeFrom_error _ _ _ _ _
      (show (base64.DecodeString salt).2 = some err by rw [hd])
    rw [henc.2] at hoff
    exact ⟨henc.1.symm, Or.inr (Or.inl ⟨off, hoff⟩)⟩

theorem Encode_congr (P : Primitives) (c1 c2 : crypt) (password salt : GoString)
    (hk : c1.SignerKey = c2.SignerKey) (hs : c1.SaltSeparator = c2.SaltSeparator)
    (hr : c1.Rounds = c2.Rounds) (hm : c1.MemCost = c2.MemCost) :
    c1.Encode P password salt = c2.Encode P password salt := by
  unfold crypt.Encode
  rw [hk, hs, hr, hm]

/-! ## The claims, continued -/

/-- C11: for valid base64 strings `New` returns the configuration whose
signer key and salt separator are the decodings of the two strings, whose
rounds and memCost are the integers passed, and whose P is 1 and KeyLen is
32; in particular from the encodings of two byte sequences it returns those
byte sequences. -/
theorem New_valid (signerKey saltSeparator : GoString) (rounds memCost : Int)
    (sk ss : List Byte)
    (hk : base64.DecodeString signerKey = (sk, none))
    (hs : base64.DecodeString saltSeparator = (ss, none)) :
    New signerKey saltSeparator rounds memCost
        = { SignerKey := some sk, SaltSeparator := some ss, Rounds := rounds,
            MemCost := memCost, P := 1, KeyLen := 32 } ∧
      New (base64.EncodeToString sk) (base64.EncodeToString ss) rounds memCost
        = { SignerKey := some sk, SaltSeparator := some ss, Rounds := rounds,
            MemCost := memCost, P := 1, KeyLen := 32 } := by
  constructor
  · simp only [New, hk, hs]
    rfl
  · simp only [New, base64.DecodeString_EncodeToString]
    rfl

theorem New_valid_witness :
    (base64.DecodeString (str "c2ln") = (str "sig", none) ∧
        base64.DecodeString (str "Bw==") = ([7], none)) ∧
      (New (str "c2ln") (str "Bw==") 8 14
          = { SignerKey := some (str "sig"), SaltSeparator := some [7], Rounds := 8,
              MemCost := 14, P := 1, KeyLen := 32 } ∧
        New (base64.EncodeToString (str "sig")) (base64.EncodeToString [7]) 8 14
          = { SignerKey := some (str "sig"), SaltSeparator := some [7], Rounds := 8,
              MemCost := 14, P := 1, KeyLen := 32 }) :=
  ⟨by decide, New_valid (str "c2ln") (str "Bw==") 8 14 (str "sig") [7] (by decide) (by decide)⟩

/-- C13: `Encode` never returns a key-size error of `aes.NewCipher`: whenever
`scrypt.Key` succeeds inside `Encode` the derived key has 32 bytes and
`aes.NewCipher` accepts it. -/
theorem cipher_error_unreachable (P : Primitives) (c : crypt) (password salt h : GoString)
    (size : Nat) :
    c.Encode P password salt ≠ Outcome.ret (h, some (GoError.keySize size)) ∧
      ∀ (saltBytes ck : List Byte) (n : Int),
        scrypt.Key P password saltBytes n c.Rounds p keyLen = Outcome.ret (ck, none) →
          ck.length = 32 ∧ aes.NewCipher ck = (some ck, none) := by
  constructor
  · intro henc
    obtain ⟨_, hcase⟩ := Encode_error_cases P c password salt h _ henc
    rcases hcase with h1 | ⟨off, h1⟩ | h1 | h1
    · cases h1
    · cases h1
    · cases h1
    · cases h1
  · intro saltBytes ck n hkey
    unfold scrypt.Key at hkey
    rcases hc : scrypt.checkParams n c.Rounds p with msg | _ | err
    · rw [hc] at hkey
      simp at hkey
    · rw [hc] at hkey
      simp only [Outcome.ret.injEq, Prod.mk.injEq, and_true] at hkey
      have hl : ck.length = 32 := by
        rw [← hkey, P.derive_length]
        rfl
      exact ⟨hl, by simp [aes.NewCipher, hl]⟩
    · rw [hc] at hkey
      simp at hkey

/-- C15: when `Encode` succeeds with hash h, `Verify` rejects every string
that differs from h in exactly one character. -/
theorem Verify_mutated_hash (P : Primitives) (c : crypt) (password salt h : GoString)
    (i : Nat) (ch : Byte)
    (henc : c.Encode P password salt = Outcome.ret (h, none))
    (hi : i < h.length) (hch : ch ≠ h[i]) :
    c.Verify P password (h.set i ch) salt = Outcome.ret false := by
  rw [Verify_of_Encode_ok P c password _ salt h henc]
  have hne : h ≠ h.set i ch := by
    intro heq
    have h1 : (h.set i ch)[i]? = some ch := by simp [hi]
    rw [← heq] at h1
    rw [List.getElem?_eq_getElem hi] at h1
    exact hch (Option.some.inj h1).symm
  simp [hne]

theorem Verify_mutated_hash_witness :
    sampleConfig.Encode samplePrimitives (str "secretPass") (str "c2FsdA==")
        = Outcome.ret (str "qrC+", none) ∧
      sampleConfig.Verify samplePrimitives (str "secretPass") ((str "qrC+").set 3 47)
        (str "c2FsdA==") = Outcome.ret false :=
  ⟨by decide,
    Verify_mutated_hash samplePrimitives sampleConfig (str "secretPass") (str "c2FsdA==")
      (str "qrC+") 3 47 (by decide) (by decide) (by decide)⟩

/-- C17: the configuration check rejects only `nil` slices.  With a signer
key that is present and of length zero (as `New` builds from the empty
string), a salt that decodes and a key derivation that succeeds, `Encode`
succeeds with the empty string as hash and `Verify` accepts the empty
string. -/
theorem Encode_empty_signerKey (P : Primitives) (c : crypt) (password salt : GoString)
    (saltSeparator saltBytes ck : List Byte) (n : Int)
    (hk : c.SignerKey = some []) (hs : c.SaltSeparator = some saltSeparator)
    (hsalt : base64.DecodeString salt = (saltBytes, none))
    (hshift : shiftLeft 1 c.MemCost = Outcome.ret n)
    (hkey : scrypt.Key P password (saltBytes ++ saltSeparator) n c.Rounds p keyLen
      = Outcome.ret (ck, none)) :
    c.Encode P password salt = Outcome.ret ([], none) ∧
      c.Verify P password [] salt = Outcome.ret true ∧
      ∀ (other : GoString) (rounds memCost : Int),
        (New [] other rounds memCost).SignerKey = some [] := by
  have henc : c.Encode P password salt = Outcome.ret ([], none) := by
    rw [Encode_present P c password salt [] saltSeparator hk hs, hsalt]
    simp only
    rw [hshift]
    simp only
    unfold scrypt.Key at hkey
    rcases hc : scrypt.checkParams n c.Rounds p with msg | _ | err
    · rw [hc] at hkey
      simp at hkey
    · simp [xorBytes, base64.EncodeToString]
    · rw [hc] at hkey
      simp at hkey
  refine ⟨henc, ?_, ?_⟩
  · rw [Verify_of_Encode_ok P c password [] salt [] henc]
    rfl
  · intro other rounds memCost
    rfl

theorem Encode_empty_signerKey_witness :
    (shiftLeft 1 emptyStringConfig.MemCost = Outcome.ret 16384 ∧
        scrypt.Key samplePrimitives (str "secretPass") (str "salt" ++ [7]) 16384
          emptyStringConfig.Rounds p keyLen
          = Outcome.ret (samplePrimitives.derive (str "secretPass") (str "salt" ++ [7]) 16384 8
              1 32, none)) ∧
      (emptyStringConfig.Encode samplePrimitives (str "secretPass") (str "c2FsdA==")
          = Outcome.ret ([], none) ∧
        emptyStringConfig.Verify samplePrimitives (str "secretPass") [] (str "c2FsdA==")
          = Outcome.ret true ∧
        ∀ (other : GoString) (rounds memCost : Int),
          (New [] other rounds memCost).SignerKey = some []) :=
  ⟨by decide,
    Encode_empty_signerKey samplePrimitives emptyStringConfig (str "secretPass")
      (str "c2FsdA==") [7] (str "salt")
      (samplePrimitives.derive (str "secretPass") (str "salt" ++ [7]) 16384 8 1 32) 16384
      (by decide) (by decide) (by decide) (by decide) (by decide)⟩

/-- C19: `Encode` and `Verify` read neither `P` nor `KeyLen`: two
configurations that agree on signer key, salt separator, rounds and memCost
give the same results for every password, salt and candidate hash. -/
theorem Encode_ignores_P_KeyLen (P : Primitives) (c1 c2 : crypt)
    (password passwordHash salt : GoString)
    (hk : c1.SignerKey = c2.SignerKey) (hs : c1.SaltSeparator = c2.SaltSeparator)
    (hr : c1.Rounds = c2.Rounds) (hm : c1.MemCost = c2.MemCost) :
    c1.Encode P password salt = c2.Encode P password salt ∧
      c1.Verify P password passwordHash salt = c2.Verify P password passwordHash salt := by
  have h := Encode_congr P c1 c2 password salt hk hs hr hm
  exact ⟨h, by rw [Verify_eq, Verify_eq, h]⟩

theorem Encode_ignores_P_KeyLen_witness :
    (sampleConfig.P ≠ otherFieldsConfig.P ∧ sampleConfig.KeyLen ≠ otherFieldsConfig.KeyLen) ∧
      (sampleConfig.Encode samplePrimitives (str "secretPass") (str "c2FsdA==")
          = otherFieldsConfig.Encode samplePrimitives (str "secretPass") (str "c2FsdA==") ∧
        sampleConfig.Verify samplePrimitives (str "secretPass") (str "qrC+") (str "c2FsdA==")
          = otherFieldsConfig.Verify samplePrimitives (str "secretPass") (str "qrC+")
              (str "c2FsdA==")) :=
  ⟨by decide,
    Encode_ignores_P_KeyLen samplePrimitives sampleConfig otherFieldsConfig (str "secretPass")
      (str "qrC+") (str "c2FsdA==") rfl rfl rfl rfl⟩

theorem Encode_eq_encodeWithCost (P : Primitives) (c : crypt) (password salt : GoString)
    (signerKey saltSeparator s : List Byte)
    (hk : c.SignerKey = some signerKey) (hs : c.SaltSeparator = some saltSeparator)
    (hsalt : base64.DecodeString salt = (s, none)) :
    c.Encode P password salt =
      match shiftLeft 1 c.MemCost with
      | Outcome.panic msg => Outcome.panic msg
      | Outcome.ret n => encodeWithCost P signerKey saltSeparator s c.Rounds password n := by
  rw [Encode_present P c password salt signerKey saltSeparator hk hs, hsalt]
  simp only
  rcases hsh : shiftLeft 1 c.MemCost with msg | n
  · rfl
  · simp only [encodeWithCost, scrypt.Key]
    rcases hc : scrypt.checkParams n c.Rounds p with msg | _ | err <;> rfl

theorem encodeWithCost_le_one (P : Primitives) (signerKey saltSeparator s : List Byte)
    (rounds : Int) (password : GoString) (n : Int) (h : n ≤ 1) :
    encodeWithCost P signerKey saltSeparator s rounds password n
      = Outcome.ret ([], some scrypt.errN) := by
  simp only [encodeWithCost, scrypt.Key, checkParams_le_one n rounds p h]

theorem shiftLeft_63 : shiftLeft 1 63 = Outcome.ret (-9223372036854775808) := by decide

theorem shiftLeft_ge_64 (m : Int) (h : 64 ≤ m) : shiftLeft 1 m = Outcome.ret 0 := by
  simp only [shiftLeft]
  rw [if_neg (by omega), if_pos (by simp [intSize]; omega)]

theorem shiftLeft_neg (m : Int) (h : m < 0) :
    shiftLeft 1 m = Outcome.panic "runtime error: negative shift amount" := by
  simp only [shiftLeft]
  rw [if_pos h]

/-- C16 fails as stated: with memory cost 64 the shift gives 0, not `2^64`;
`Encode` hands 0 to `scrypt.Key` and returns its error for a bad `N`, where
`2^64` would have given the error for too large parameters. -/
theorem shift_wraps_to_zero :
    shiftLeft 1 memCost64Config.MemCost = Outcome.ret 0 ∧
      (∀ P : Primitives, memCost64Config.Encode P (str "secretPass") (str "c2FsdA==")
        = encodeWithCost P (str "sig") [7] (str "salt") 8 (str "secretPass") 0) ∧
      (∀ P : Primitives, memCost64Config.Encode P (str "secretPass") (str "c2FsdA==")
        = Outcome.ret ([], some scrypt.errN)) ∧
      (∀ P : Primitives, encodeWithCost P (str "sig") [7] (str "salt") 8 (str "secretPass")
        (2 ^ 64) = Outcome.ret ([], some scrypt.errTooLarge)) := by
  have h1 : ∀ P : Primitives, memCost64Config.Encode P (str "secretPass") (str "c2FsdA==")
      = encodeWithCost P (str "sig") [7] (str "salt") 8 (str "secretPass") 0 := by
    intro P
    rw [Encode_eq_encodeWithCost P memCost64Config _ _ (str "sig") [7] (str "salt") (by decide)
      (by decide) decode_sample_salt]
    rfl
  refine ⟨by decide, h1, ?_, ?_⟩
  · intro P
    rw [h1 P, encodeWithCost_le_one _ _ _ _ _ _ _ (by decide)]
  · intro P
    have hc : scrypt.checkParams (2 ^ 64) 8 p = Outcome.ret (some scrypt.errTooLarge) := by
      decide
    simp only [encodeWithCost, scrypt.Key, hc]

/-- C16, amended: with both slices present and a salt that decodes, the cost
parameter `Encode` hands to `scrypt.Key` is exactly `2^memCost` for
0 ≤ memCost ≤ 62; it is `-2^63` for memCost = 63 and 0 for memCost ≥ 64, and
for a negative memCost the shift panics before `scrypt.Key` is called. -/
theorem cost_parameter (P : Primitives) (c : crypt) (password salt : GoString)
    (signerKey saltSeparator s : List Byte)
    (hk : c.SignerKey = some signerKey) (hs : c.SaltSeparator = some saltSeparator)
    (hsalt : base64.DecodeString salt = (s, none)) :
    (0 ≤ c.MemCost → c.MemCost ≤ 62 →
        c.Encode P password salt
          = encodeWithCost P signerKey saltSeparator s c.Rounds password (2 ^ c.MemCost.toNat)) ∧
      (c.MemCost = 63 →
        c.Encode P password salt
          = encodeWithCost P signerKey saltSeparator s c.Rounds password (-(2 ^ 63))) ∧
      (64 ≤ c.MemCost →
        c.Encode P password salt
          = encodeWithCost P signerKey saltSeparator s c.Rounds password 0) ∧
      (c.MemCost < 0 →
        c.Encode P password salt = Outcome.panic "runtime error: negative shift amount") := by
  have h := Encode_eq_encodeWithCost P c password salt signerKey saltSeparator s hk hs hsalt
  refine ⟨?_, ?_, ?_, ?_⟩
  · intro h0 h1
    rw [h, shiftLeft_one_small c.MemCost h0 (by omega)]
  · intro h63
    rw [h, h63, shiftLeft_63]
    rfl
  · intro h64
    rw [h, shiftLeft_ge_64 c.MemCost h64]
  · intro hneg
    rw [h, shiftLeft_neg c.MemCost hneg]

theorem cost_parameter_witness :
    (sampleConfig.SignerKey = some (str "sig") ∧ sampleConfig.SaltSeparator = some [7] ∧
        base64.DecodeString (str "c2FsdA==") = (str "salt", none)) ∧
      ((0 ≤ sampleConfig.MemCost → sampleConfig.MemCost ≤ 62 →
          sampleConfig.Encode samplePrimitives (str "secretPass") (str "c2FsdA==")
            = encodeWithCost samplePrimitives (str "sig") [7] (str "salt") sampleConfig.Rounds
                (str "secretPass") (2 ^ sampleConfig.MemCost.toNat)) ∧
        (sampleConfig.MemCost = 63 →
          sampleConfig.Encode samplePrimitives (str "secretPass") (str "c2FsdA==")
            = encodeWithCost samplePrimitives (str "sig") [7] (str "salt") sampleConfig.Rounds
                (str "secretPass") (-(2 ^ 63))) ∧
        (64 ≤ sampleConfig.MemCost →
          sampleConfig.Encode samplePrimitives (str "secretPass") (str "c2FsdA==")
            = encodeWithCost samplePrimitives (str "sig") [7] (str "salt") sampleConfig.Rounds
                (str "secretPass") 0) ∧
        (sampleConfig.MemCost < 0 →
          sampleConfig.Encode samplePrimitives (str "secretPass") (str "c2FsdA==")
            = Outcome.panic "runtime error: negative shift amount")) :=
  ⟨by decide,
    cost_parameter samplePrimitives sampleConfig (str "secretPass") (str "c2FsdA==") (str "sig")
      [7] (str "salt") (by decide) (by decide) (by decide)⟩

theorem Encode_eq_EncodeWith (P : Primitives) (c : crypt) (password salt : GoString) :
    c.Encode P password salt = c.EncodeWith P (scrypt.Key P) password salt := rfl

/-- What `EncodeWith` computes once both slices of the configuration are
present and the salt decodes. -/
theorem EncodeWith_present (P : Primitives)
    (key : List Byte → List Byte → Int → Int → Int → Int → Outcome (List Byte × Option GoError))
    (c : crypt) (password salt : GoString) (signerKey saltSeparator s : List Byte)
    (hk : c.SignerKey = some signerKey) (hs : c.SaltSeparator = some saltSeparator)
    (hsalt : base64.DecodeString salt = (s, none)) :
    c.EncodeWith P key password salt =
      match shiftLeft 1 c.MemCost with
      | Outcome.panic msg => Outcome.panic msg
      | Outcome.ret n =>
        match key password (s ++ saltSeparator) n c.Rounds p keyLen with
        | Outcome.panic msg => Outcome.panic msg
        | Outcome.ret (_, some err) => Outcome.ret ([], some err)
        | Outcome.ret (ck, none) =>
          if ck.length = 16 ∨ ck.length = 24 ∨ ck.length = 32 then
            Outcome.ret (base64.EncodeToString (xorBytes signerKey
              (ctrKeyStream P ck ((signerKey.length + 15) / 16))), none)
          else Outcome.ret ([], some (GoError.keySize ck.length)) := by
  unfold crypt.EncodeWith
  rw [hk, hs]
  simp only [hsalt]
  rcases hsh : shiftLeft 1 c.MemCost with msg | n
  · rfl
  · simp only
    rcases hkey : key password (s ++ saltSeparator) n c.Rounds p keyLen with msg | ⟨ck, _ | err⟩
    · rfl
    · simp only
      by_cases hl : ck.length = 16 ∨ ck.length = 24 ∨ ck.length = 32
      · rw [if_pos hl]
        simp [aes.NewCipher, hl, cipher.NewCTR, cipher.XORKeyStream, aes.BlockSize, xorBytes]
        rw [← cipher.keyStream_zeroIV]
        rfl
      · rw [if_neg hl]
        simp [aes.NewCipher, hl]
    · rfl

/-- C12 fails as stated: with a negative memory cost the shift `1<<MemCost`
panics, before the key derivation is called and so whatever it would do. -/
theorem Encode_panics :
    (∀ P : Primitives, badCostConfig.Encode P (str "secretPass") (str "c2FsdA==")
        = Outcome.panic "runtime error: negative shift amount") ∧
      (∀ (P : Primitives)
          (key : List Byte → List Byte → Int → Int → Int → Int →
            Outcome (List Byte × Option GoError)),
        badCostConfig.EncodeWith P key (str "secretPass") (str "c2FsdA==")
          = Outcome.panic "runtime error: negative shift amount") := by
  have h : ∀ (P : Primitives)
      (key : List Byte → List Byte → Int → Int → Int → Int →
        Outcome (List Byte × Option GoError)),
      badCostConfig.EncodeWith P key (str "secretPass") (str "c2FsdA==")
        = Outcome.panic "runtime error: negative shift amount" := by
    intro P key
    rw [EncodeWith_present P key badCostConfig _ _ (str "sig") [7] (str "salt") (by decide)
      (by decide) decode_sample_salt]
    rfl
  exact ⟨fun P => by rw [Encode_eq_EncodeWith]; exact h P _, h⟩

/-- C12, amended: with both slices present and a salt that decodes, a
negative memCost makes `Encode` panic in the shift, before the key derivation
is called.  For memCost ≥ 0 `Encode` calls the key derivation once, with the
shifted cost, rounds, 1 and 32, and ends as that call ends: an error of the
call is returned with the empty string, a key of an AES length gives a hash,
and `Encode` panics exactly when the call panics.  This holds for every key
derivation, whatever it checks and allocates. -/
theorem EncodeWith_outcome (P : Primitives)
    (key : List Byte → List Byte → Int → Int → Int → Int → Outcome (List Byte × Option GoError))
    (c : crypt) (password salt : GoString) (signerKey saltSeparator s : List Byte)
    (hk : c.SignerKey = some signerKey) (hs : c.SaltSeparator = some saltSeparator)
    (hsalt : base64.DecodeString salt = (s, none)) :
    (c.MemCost < 0 →
        c.EncodeWith P key password salt
          = Outcome.panic "runtime error: negative shift amount") ∧
      (0 ≤ c.MemCost →
        ∃ n, shiftLeft 1 c.MemCost = Outcome.ret n ∧
          (∀ msg, key password (s ++ saltSeparator) n c.Rounds p keyLen = Outcome.panic msg →
            c.EncodeWith P key password salt = Outcome.panic msg) ∧
          (∀ ck e, key password (s ++ saltSeparator) n c.Rounds p keyLen
              = Outcome.ret (ck, some e) →
            c.EncodeWith P key password salt = Outcome.ret ([], some e)) ∧
          (∀ ck, key password (s ++ saltSeparator) n c.Rounds p keyLen = Outcome.ret (ck, none) →
            (ck.length = 16 ∨ ck.length = 24 ∨ ck.length = 32) →
            c.EncodeWith P key password salt
              = Outcome.ret (base64.EncodeToString (xorBytes signerKey
                  (ctrKeyStream P ck ((signerKey.length + 15) / 16))), none)) ∧
          ((∃ msg, c.EncodeWith P key password salt = Outcome.panic msg) ↔
            ∃ msg, key password (s ++ saltSeparator) n c.Rounds p keyLen = Outcome.panic msg)) := by
  have h := EncodeWith_present P key c password salt signerKey saltSeparator s hk hs hsalt
  constructor
  · intro hneg
    rw [h, shiftLeft_neg c.MemCost hneg]
  · intro h0
    have hn : ∃ n, shiftLeft 1 c.MemCost = Outcome.ret n := by
      by_cases hbig : 63 ≤ c.MemCost
      · obtain ⟨n, hn, _⟩ := shiftLeft_one_large c.MemCost hbig
        exact ⟨n, hn⟩
      · exact ⟨_, shiftLeft_one_small c.MemCost h0 (by omega)⟩
    obtain ⟨n, hn⟩ := hn
    rw [hn] at h
    simp only at h
    refine ⟨n, hn, ?_, ?_, ?_, ?_⟩
    · intro msg hkey
      rw [h, hkey]
    · intro ck e hkey
      rw [h, hkey]
    · intro ck hkey hl
      rw [h, hkey]
      simp only [if_pos hl]
    · rw [h]
      rcases hkey : key password (s ++ saltSeparator) n c.Rounds p keyLen with msg | ⟨ck, _ | err⟩
      · simp
      · simp only
        split <;> simp
      · simp

theorem EncodeWith_outcome_witness :
    (sampleConfig.SignerKey = some (str "sig") ∧ sampleConfig.SaltSeparator = some [7] ∧
        base64.DecodeString (str "c2FsdA==") = (str "salt", none)) ∧
      ((sampleConfig.MemCost < 0 →
          sampleConfig.EncodeWith samplePrimitives panickingKey (str "secretPass")
              (str "c2FsdA==")
            = Outcome.panic "runtime error: negative shift amount") ∧
        (0 ≤ sampleConfig.MemCost →
          ∃ n, shiftLeft 1 sampleConfig.MemCost = Outcome.ret n ∧
            (∀ msg, panickingKey (str "secretPass") (str "salt" ++ [7]) n sampleConfig.Rounds p
                keyLen = Outcome.panic msg →
              sampleConfig.EncodeWith samplePrimitives panickingKey (str "secretPass")
                (str "c2FsdA==") = Outcome.panic msg) ∧
            (∀ ck e, panickingKey (str "secretPass") (str "salt" ++ [7]) n sampleConfig.Rounds p
                keyLen = Outcome.ret (ck, some e) →
              sampleConfig.EncodeWith samplePrimitives panickingKey (str "secretPass")
                (str "c2FsdA==") = Outcome.ret ([], some e)) ∧
            (∀ ck, panickingKey (str "secretPass") (str "salt" ++ [7]) n sampleConfig.Rounds p
                keyLen = Outcome.ret (ck, none) →
              (ck.length = 16 ∨ ck.length = 24 ∨ ck.length = 32) →
              sampleConfig.EncodeWith samplePrimitives panickingKey (str "secretPass")
                  (str "c2FsdA==")
                = Outcome.ret (base64.EncodeToString (xorBytes (str "sig")
                    (ctrKeyStream samplePrimitives ck (((str "sig").length + 15) / 16))),
                    none)) ∧
            ((∃ msg, sampleConfig.EncodeWith samplePrimitives panickingKey (str "secretPass")
                  (str "c2FsdA==") = Outcome.panic msg) ↔
              ∃ msg, panickingKey (str "secretPass") (str "salt" ++ [7]) n sampleConfig.Rounds p
                keyLen = Outcome.panic msg))) :=
  ⟨by decide,
    EncodeWith_outcome samplePrimitives panickingKey sampleConfig (str "secretPass")
      (str "c2FsdA==") (str "sig") [7] (str "salt") (by decide) (by decide) (by decide)⟩

theorem byte_xor_val (a b : Byte) : (a ^^^ b).val = a.val ^^^ b.val := by
  obtain ⟨a, ha⟩ := a
  obtain ⟨b, hb⟩ := b
  have hab : a ^^^ b < 2 ^ 8 := Nat.xor_lt_two_pow (by omega) (by omega)
  change (a ^^^ b) % 256 = a ^^^ b
  exact Nat.mod_eq_of_lt (by omega)

theorem byte_xor_xor_self (a s : Byte) : (a ^^^ s) ^^^ a = s := by
  apply Fin.ext
  rw [byte_xor_val, byte_xor_val, Nat.xor_comm a.val s.val, Nat.xor_assoc, Nat.xor_self,
    Nat.xor_zero]

theorem byte_xor_xor_xor (a b s : Byte) : (a ^^^ s) ^^^ (b ^^^ s) = a ^^^ b := by
  apply Fin.ext
  rw [byte_xor_val, byte_xor_val, byte_xor_val, byte_xor_val, Nat.xor_comm b.val s.val,
    Nat.xor_assoc, ← Nat.xor_assoc s.val s.val b.val, Nat.xor_self, Nat.zero_xor]

theorem xorBytes_xorBytes_self (k : List Byte) :
    ∀ ks : List Byte, k.length ≤ ks.length → xorBytes (xorBytes k ks) k = ks.take k.length := by
  induction k with
  | nil => intro ks _; simp [xorBytes]
  | cons a rest ih =>
    intro ks h
    cases ks with
    | nil => simp at h
    | cons x xs =>
      have hx : rest.length ≤ xs.length := by simpa using h
      have := ih xs hx
      simp only [xorBytes] at this
      simp [xorBytes, byte_xor_xor_self, this]

theorem xorBytes_xorBytes_xorBytes (k1 : List Byte) :
    ∀ k2 ks : List Byte, k1.length = k2.length → k1.length ≤ ks.length →
      xorBytes (xorBytes k1 ks) (xorBytes k2 ks) = xorBytes k1 k2 := by
  induction k1 with
  | nil => intro k2 ks _ _; simp [xorBytes]
  | cons a rest ih =>
    intro k2 ks h1 h2
    cases k2 with
    | nil => simp at h1
    | cons b rest2 =>
      cases ks with
      | nil => simp at h2
      | cons x xs =>
        have := ih rest2 xs (by simpa using h1) (by simpa using h2)
        simp only [xorBytes] at this
        simp [xorBytes, byte_xor_xor_xor, this]

/-- C18: for two configurations that agree on salt separator, rounds and
memCost and whose signer keys have the same length, when `Encode` succeeds on
the first it succeeds on the second, and the decoded hashes XORed with their
signer keys agree byte for byte; equivalently the XOR of the decoded hashes
is the XOR of the signer keys. -/
theorem keystream_independent_of_signerKey (P : Primitives) (c1 c2 : crypt)
    (password salt h1 : GoString) (k1 k2 : List Byte)
    (hk1 : c1.SignerKey = some k1) (hk2 : c2.SignerKey = some k2)
    (hs : c1.SaltSeparator = c2.SaltSeparator) (hr : c1.Rounds = c2.Rounds)
    (hm : c1.MemCost = c2.MemCost) (hlen : k1.length = k2.length)
    (henc : c1.Encode P password salt = Outcome.ret (h1, none)) :
    ∃ h2 d1 d2, c2.Encode P password salt = Outcome.ret (h2, none) ∧
      base64.DecodeString h1 = (d1, none) ∧ base64.DecodeString h2 = (d2, none) ∧
      xorBytes d1 k1 = xorBytes d2 k2 ∧ xorBytes d1 d2 = xorBytes k1 k2 := by
  obtain ⟨sk, sep, s, hk, hsep, hd, h0, hlt, hc, hh⟩ :=
    (Encode_ok_iff P c1 password salt h1).mp henc
  rw [hk1] at hk
  cases hk
  have henc2 : c2.Encode P password salt
      = Outcome.ret (specHash P k2 sep c2.Rounds c2.MemCost password s, none) :=
    (Encode_ok_iff P c2 password salt _).mpr
      ⟨k2, sep, s, hk2, by rw [← hs, hsep], hd, by rw [← hm]; exact h0, by rw [← hm]; exact hlt,
        by rw [← hm, ← hr]; exact hc, rfl⟩
  rw [← hr, ← hm] at henc2
  subst hh
  have hks : k1.length ≤ (ctrKeyStream P
      (P.derive password (s ++ sep) (2 ^ c1.MemCost.toNat) c1.Rounds 1 32)
      ((k1.length + 15) / 16)).length := by
    rw [cipher.length_ctrKeyStream]
    omega
  refine ⟨_, xorBytes k1 (ctrKeyStream P
      (P.derive password (s ++ sep) (2 ^ c1.MemCost.toNat) c1.Rounds 1 32)
      ((k1.length + 15) / 16)), xorBytes k2 (ctrKeyStream P
      (P.derive password (s ++ sep) (2 ^ c1.MemCost.toNat) c1.Rounds 1 32)
      ((k1.length + 15) / 16)), henc2, ?_, ?_, ?_, ?_⟩
  · exact base64.DecodeString_EncodeToString _
  · simp only [specHash, ← hlen]
    exact base64.DecodeString_EncodeToString _
  · rw [xorBytes_xorBytes_self k1 _ hks, xorBytes_xorBytes_self k2 _ (by rw [← hlen]; exact hks),
      hlen]
  · exact xorBytes_xorBytes_xorBytes k1 k2 _ hlen hks

theorem keystream_independent_of_signerKey_witness :
    sampleConfig.Encode samplePrimitives (str "secretPass") (str "c2FsdA==")
        = Outcome.ret (str "qrC+", none) ∧
      ∃ h2 d1 d2, otherKeyConfig.Encode samplePrimitives (str "secretPass") (str "c2FsdA==")
          = Outcome.ret (h2, none) ∧
        base64.DecodeString (str "qrC+") = (d1, none) ∧ base64.DecodeString h2 = (d2, none) ∧
        xorBytes d1 (str "sig") = xorBytes d2 (str "key") ∧
        xorBytes d1 d2 = xorBytes (str "sig") (str "key") :=
  ⟨by decide,
    keystream_independent_of_signerKey samplePrimitives sampleConfig otherKeyConfig
      (str "secretPass") (str "c2FsdA==") (str "qrC+") (str "sig") (str "key") (by decide)
      (by decide) (by decide) (by decide) (by decide) (by decide) (by decide)⟩

/-! ## Lemmas on memory -/

theorem Keeps.refl (mem0 : Memory) : Keeps mem0 mem0 :=
  ⟨Nat.le_refl _, fun _ _ => rfl⟩

theorem keeps_makeSlice (mem0 mem : Memory) (n : Nat) (h : Keeps mem0 mem) :
    Keeps mem0 (makeSlice mem n).1 := by
  refine ⟨by simp [makeSlice]; exact Nat.le_succ_of_le h.1, ?_⟩
  intro i hi
  rw [← h.2 i hi]
  simp only [makeSlice, List.getD_eq_getElem?_getD]
  rw [List.getElem?_append_left (Nat.lt_of_lt_of_le hi h.1)]

theorem keeps_store (mem0 mem : Memory) (s : Slice) (k : Nat) (bytes : List Byte)
    (h : Keeps mem0 mem) (hs : mem0.length ≤ s.arr) : Keeps mem0 (store mem s k bytes) := by
  refine ⟨by simp [store]; exact h.1, ?_⟩
  intro i hi
  rw [← h.2 i hi]
  simp only [store, List.getD_eq_getElem?_getD]
  rw [List.getElem?_set_ne (by omega)]

theorem load_keeps (mem0 mem : Memory) (s : Slice) (h : Keeps mem0 mem)
    (hs : s.arr < mem0.length) : load mem s = load mem0 s := by
  simp only [load, h.2 s.arr hs]

theorem length_load (mem : Memory) (s : Slice) (hs : s.valid mem) :
    (load mem s).length = s.len := by
  simp only [load, List.length_take, List.length_drop]
  have := hs.2
  omega

theorem getD_store_self (mem : Memory) (s : Slice) (k : Nat) (bytes : List Byte)
    (hs : s.arr < mem.length) :
    (store mem s k bytes).getD s.arr []
      = (mem.getD s.arr []).take (s.off + k) ++ bytes
          ++ (mem.getD s.arr []).drop (s.off + k + bytes.length) := by
  simp only [store, List.getD_eq_getElem?_getD]
  rw [List.getElem?_set_self hs]
  rfl

theorem getD_makeSlice_self (mem : Memory) (n : Nat) :
    (makeSlice mem n).1.getD mem.length [] = List.replicate n 0 := by
  simp [makeSlice, List.getD_eq_getElem?_getD]

/-- A fresh array written from its start shows the bytes written. -/
theorem load_store_fresh (mem : Memory) (n : Nat) (bytes : List Byte) :
    load (store (makeSlice mem n).1 (makeSlice mem n).2 0 bytes)
      (reslice (makeSlice mem n).2 0 bytes.length) = bytes := by
  have hlt : (makeSlice mem n).2.arr < (makeSlice mem n).1.length := by simp [makeSlice]
  have hoff : (makeSlice mem n).2.off = 0 := rfl
  simp only [load, reslice]
  rw [getD_store_self _ _ _ _ hlt, hoff]
  simp

theorem valid_store_fresh (mem : Memory) (n : Nat) (bytes : List Byte) :
    (reslice (makeSlice mem n).2 0 bytes.length).valid
      (store (makeSlice mem n).1 (makeSlice mem n).2 0 bytes) := by
  have hlt : (makeSlice mem n).2.arr < (makeSlice mem n).1.length := by simp [makeSlice]
  have hoff : (makeSlice mem n).2.off = 0 := rfl
  refine ⟨by simp [store, reslice, makeSlice], ?_⟩
  simp only [reslice]
  rw [getD_store_self _ _ _ _ hlt, hoff]
  simp

/-- What `append` returns shows the bytes of the slice followed by the bytes
appended. -/
theorem load_appendSlice (mem : Memory) (s : Slice) (bytes : List Byte) (hs : s.valid mem) :
    load (appendSlice mem s bytes).1 (appendSlice mem s bytes).2 = load mem s ++ bytes := by
  unfold appendSlice
  split
  · simp only [load]
    rw [getD_store_self _ _ _ _ hs.1]
    have h2 := hs.2
    have h1 : ((mem.getD s.arr []).take (s.off + s.len)).length = s.off + s.len := by
      rw [List.length_take]; omega
    rw [List.append_assoc, List.drop_append_of_le_length (by omega),
      List.take_append_eq_append_take]
    have h3 : (List.drop s.off (List.take (s.off + s.len) (mem.getD s.arr []))).length
        = s.len := by
      rw [List.length_drop, h1]; omega
    rw [h3, List.take_of_length_le (by omega)]
    have h4 : List.drop s.off (List.take (s.off + s.len) (mem.getD s.arr []))
        = List.take s.len (List.drop s.off (mem.getD s.arr [])) := by
      rw [List.drop_take]
      congr 1
      omega
    rw [h4]
    simp
  · have hl : (load mem s ++ bytes).length = s.len + bytes.length := by
      rw [List.length_append, length_load mem s hs]
    have := load_store_fresh mem (s.len + bytes.length) (load mem s ++ bytes)
    rw [hl] at this
    exact this

theorem keeps_appendSlice (mem0 mem : Memory) (s : Slice) (bytes : List Byte)
    (h : Keeps mem0 mem) (hs : mem0.length ≤ s.arr) :
    Keeps mem0 (appendSlice mem s bytes).1 := by
  unfold appendSlice
  split
  · exact keeps_store mem0 mem s _ bytes h hs
  · exact keeps_store mem0 _ _ _ _ (keeps_makeSlice mem0 mem _ h) (by simp [makeSlice]; exact h.1)

/-- The decoder over memory returns a valid fresh slice that shows the bytes
decoded, with the error of the decoder. -/
theorem DecodeStringM_spec (mem0 mem : Memory) (s : GoString) (h : Keeps mem0 mem) :
    Keeps mem0 (base64.DecodeStringM mem s).1 ∧
      load (base64.DecodeStringM mem s).1 (base64.DecodeStringM mem s).2.1
        = (base64.DecodeString s).1 ∧
      (base64.DecodeStringM mem s).2.1.valid (base64.DecodeStringM mem s).1 ∧
      mem0.length ≤ (base64.DecodeStringM mem s).2.1.arr ∧
      (base64.DecodeStringM mem s).2.2 = (base64.DecodeString s).2 := by
  refine ⟨?_, load_store_fresh mem _ _, valid_store_fresh mem _ _, h.1, rfl⟩
  exact keeps_store mem0 _ _ _ _ (keeps_makeSlice mem0 mem _ h) h.1

/-- The key derivation over memory returns what `scrypt.Key` returns on the
bytes of the salt slice, the key in a slice that shows it. -/
theorem KeyM_spec (P : Primitives) (mem0 mem : Memory) (password : GoString) (salt : Slice)
    (N r q kl : Int) (h : Keeps mem0 mem) :
    Keeps mem0 (scrypt.KeyM P mem password salt N r q kl).1 ∧
      (match (scrypt.KeyM P mem password salt N r q kl).2 with
        | Outcome.panic msg => Outcome.panic msg
        | Outcome.ret (k, e) =>
          Outcome.ret (load (scrypt.KeyM P mem password salt N r q kl).1 k, e))
        = scrypt.Key P password (load mem salt) N r q kl := by
  unfold scrypt.KeyM
  rcases hk : scrypt.Key P password (load mem salt) N r q kl with msg | ⟨key, _ | err⟩
  · exact ⟨h, rfl⟩
  · refine ⟨keeps_store mem0 _ _ _ _ (keeps_makeSlice mem0 mem _ h) h.1, ?_⟩
    simp only
    have := load_store_fresh mem key.length key
    simp only [reslice, makeSlice, Nat.add_zero, Nat.sub_zero] at this ⊢
    rw [this]
  · refine ⟨h, ?_⟩
    simp only
    have hk2 := hk
    unfold scrypt.Key at hk2
    rcases hc : scrypt.checkParams N r q with msg | _ | e2
    · rw [hc] at hk2; simp at hk2
    · rw [hc] at hk2; simp at hk2
    · rw [hc] at hk2
      simp only [Outcome.ret.injEq, Prod.mk.injEq, Option.some.injEq] at hk2
      rw [← hk2.1]
      simp [load, nilSlice]

theorem load_fresh_iv (mem : Memory) (n : Nat) :
    load (makeSlice mem (16 + n)).1 (reslice (makeSlice mem (16 + n)).2 0 16)
      = List.replicate 16 0 := by
  have harr : (reslice (makeSlice mem (16 + n)).2 0 16).arr = mem.length := rfl
  simp only [load, harr, getD_makeSlice_self]
  simp [reslice, makeSlice]

theorem load_fresh_dst (mem : Memory) (n : Nat) :
    load (makeSlice mem (16 + n)).1
        (reslice (makeSlice mem (16 + n)).2 16 (makeSlice mem (16 + n)).2.len)
      = List.replicate n 0 := by
  have harr : (reslice (makeSlice mem (16 + n)).2 16 (makeSlice mem (16 + n)).2.len).arr
      = mem.length := rfl
  simp only [load, harr, getD_makeSlice_self]
  simp [reslice, makeSlice]

theorem load_store_dst (mem : Memory) (n : Nat) (out : List Byte) (h : out.length = n) :
    load (store (makeSlice mem (16 + n)).1
        (reslice (makeSlice mem (16 + n)).2 16 (makeSlice mem (16 + n)).2.len) 0 out)
      (reslice (makeSlice mem (16 + n)).2 16 (makeSlice mem (16 + n)).2.len) = out := by
  have hlt : (reslice (makeSlice mem (16 + n)).2 16 (makeSlice mem (16 + n)).2.len).arr
      < (makeSlice mem (16 + n)).1.length := by simp [makeSlice, reslice]
  have harr : (reslice (makeSlice mem (16 + n)).2 16 (makeSlice mem (16 + n)).2.len).arr
      = mem.length := rfl
  have hoff : (reslice (makeSlice mem (16 + n)).2 16 (makeSlice mem (16 + n)).2.len).off
      = 16 := rfl
  have hlen : (reslice (makeSlice mem (16 + n)).2 16 (makeSlice mem (16 + n)).2.len).len
      = n := by simp [reslice, makeSlice]
  simp only [load]
  rw [getD_store_self _ _ _ _ hlt, harr, hoff, hlen, getD_makeSlice_self]
  simp only [Nat.add_zero, List.take_replicate, List.append_assoc]
  rw [List.drop_append_of_le_length (by simp), List.take_append_eq_append_take]
  simp [h]

/-- The encryption over memory: on a fresh cipher text buffer the stream over
the zero IV writes the signer key XORed with the key stream, and touches no
array allocated before. -/
theorem XORKeyStreamM_spec (P : Primitives) (mem0 mem : Memory) (key : List Byte)
    (signerKey : Slice) (h : Keeps mem0 mem) (hv : signerKey.valid mem0) :
    (cipher.XORKeyStreamM P { key := key, ctr := List.replicate 16 0 }
        (makeSlice mem (16 + signerKey.len)).1
        (reslice (makeSlice mem (16 + signerKey.len)).2 16
          (makeSlice mem (16 + signerKey.len)).2.len) signerKey).2 = Outcome.ret () ∧
      Keeps mem0 (cipher.XORKeyStreamM P { key := key, ctr := List.replicate 16 0 }
        (makeSlice mem (16 + signerKey.len)).1
        (reslice (makeSlice mem (16 + signerKey.len)).2 16
          (makeSlice mem (16 + signerKey.len)).2.len) signerKey).1 ∧
      load (cipher.XORKeyStreamM P { key := key, ctr := List.replicate 16 0 }
          (makeSlice mem (16 + signerKey.len)).1
          (reslice (makeSlice mem (16 + signerKey.len)).2 16
            (makeSlice mem (16 + signerKey.len)).2.len) signerKey).1
          (reslice (makeSlice mem (16 + signerKey.len)).2 16
            (makeSlice mem (16 + signerKey.len)).2.len)
        = xorBytes (load mem0 signerKey)
            (ctrKeyStream P key (((load mem0 signerKey).length + 15) / 16)) := by
  have hk4 := keeps_makeSlice mem0 mem (16 + signerKey.len) h
  have hsrc : load (makeSlice mem (16 + signerKey.len)).1 signerKey = load mem0 signerKey :=
    load_keeps mem0 _ signerKey hk4 hv.1
  have hlen : (load mem0 signerKey).length = signerKey.len := length_load mem0 signerKey hv
  have hno : inexactOverlap
      (reslice (reslice (makeSlice mem (16 + signerKey.len)).2 16
        (makeSlice mem (16 + signerKey.len)).2.len) 0
        (min (reslice (makeSlice mem (16 + signerKey.len)).2 16
          (makeSlice mem (16 + signerKey.len)).2.len).len signerKey.len)) signerKey = false := by
    have h1 := hv.1
    have h2 := h.1
    simp only [inexactOverlap, reslice, makeSlice, decide_eq_false_iff_not]
    intro hc
    omega
  have hx : cipher.XORKeyStream P { key := key, ctr := List.replicate 16 0 }
      (List.replicate signerKey.len 0) (load mem0 signerKey)
      = Outcome.ret (xorBytes (load mem0 signerKey)
          (ctrKeyStream P key (((load mem0 signerKey).length + 15) / 16))) := by
    simp only [cipher.XORKeyStream, List.length_replicate, hlen, Nat.lt_irrefl, if_false,
      aes.BlockSize]
    rw [cipher.keyStream_zeroIV]
    simp [xorBytes, hlen]
  have hout : (xorBytes (load mem0 signerKey)
      (ctrKeyStream P key (((load mem0 signerKey).length + 15) / 16))).length
      = signerKey.len := by
    rw [cipher.length_xorBytes, hlen]
  unfold cipher.XORKeyStreamM
  rw [hno]
  simp only [Bool.false_eq_true, if_false]
  rw [load_fresh_dst, hsrc, hx]
  simp only
  refine ⟨trivial, ?_, load_store_dst mem signerKey.len _ hout⟩
  exact keeps_store mem0 _ _ _ _ hk4 h.1

/-- The call over memory returns what `Encode` returns on the configuration
the state shows, leaves the struct as it is and keeps every array that was
allocated before the call. -/
theorem EncodeM_spec (P : Primitives) (st : State) (password salt : GoString) (hwf : st.wf) :
    (cryptM.Encode P st password salt).2 = st.view.Encode P password salt ∧
      (cryptM.Encode P st password salt).1.cfg = st.cfg ∧
      Keeps st.mem (cryptM.Encode P st password salt).1.mem := by
  rcases hs : st.cfg.SaltSeparator with _ | sepS
  · have hv : st.view.SaltSeparator = none := by simp [State.view, hs]
    rw [Encode_absent P st.view password salt (Or.inr hv)]
    unfold cryptM.Encode
    rw [hs]
    rcases st.cfg.SignerKey with _ | skS
    · exact ⟨rfl, rfl, Keeps.refl st.mem⟩
    · exact ⟨rfl, rfl, Keeps.refl st.mem⟩
  rcases hk : st.cfg.SignerKey with _ | skS
  · have hv : st.view.SignerKey = none := by simp [State.view, hk]
    rw [Encode_absent P st.view password salt (Or.inl hv)]
    unfold cryptM.Encode
    rw [hs, hk]
    exact ⟨rfl, rfl, Keeps.refl st.mem⟩
  have hvk : st.view.SignerKey = some (load st.mem skS) := by simp [State.view, hk]
  have hvs : st.view.SaltSeparator = some (load st.mem sepS) := by simp [State.view, hs]
  have hskv : skS.valid st.mem := hwf.1 skS hk
  have hsepv : sepS.valid st.mem := hwf.2 sepS hs
  have hvm : st.view.MemCost = st.cfg.MemCost := rfl
  have hvr : st.view.Rounds = st.cfg.Rounds := rfl
  rw [Encode_present P st.view password salt _ _ hvk hvs, hvm, hvr]
  unfold cryptM.Encode
  rw [hs, hk]
  simp only
  -- the decoded salt
  obtain ⟨hk1, hl1, hv1, ha1, he1⟩ := DecodeStringM_spec st.mem st.mem salt (Keeps.refl st.mem)
  generalize base64.DecodeStringM st.mem salt = r1 at hk1 hl1 hv1 ha1 he1 ⊢
  obtain ⟨mem1, s, err1⟩ := r1
  simp only at hk1 hl1 hv1 ha1 he1 ⊢
  rcases hd : base64.DecodeString salt with ⟨sBytes, err⟩
  rw [hd] at hl1 he1
  simp only at hl1 he1
  subst he1
  rcases err1 with _ | err
  swap
  · exact ⟨rfl, rfl, hk1⟩
  simp only
  -- the salt of the derivation
  have hk2 := keeps_appendSlice st.mem mem1 s (load mem1 sepS) hk1 ha1
  have hl2 := load_appendSlice mem1 s (load mem1 sepS) hv1
  have hsep := load_keeps st.mem mem1 sepS hk1 hsepv.1
  generalize appendSlice mem1 s (load mem1 sepS) = r2 at hk2 hl2 ⊢
  obtain ⟨mem2, kdfSalt⟩ := r2
  simp only at hk2 hl2 ⊢
  rw [hl1, hsep] at hl2
  rcases hsh : shiftLeft 1 st.cfg.MemCost with msg | n
  · exact ⟨rfl, rfl, hk2⟩
  simp only
  -- the derived key
  obtain ⟨hk3, hkey⟩ := KeyM_spec P st.mem mem2 password kdfSalt n st.cfg.Rounds p keyLen hk2
  rw [hl2] at hkey
  generalize scrypt.KeyM P mem2 password kdfSalt n st.cfg.Rounds p keyLen = r3 at hk3 hkey ⊢
  obtain ⟨mem3, o3⟩ := r3
  simp only at hk3 hkey ⊢
  unfold scrypt.Key at hkey
  rcases hc : scrypt.checkParams n st.cfg.Rounds p with msg | _ | err
  · rw [hc] at hkey
    rcases o3 with m3 | ⟨ck, e3⟩
    · exact ⟨by simpa using hkey, rfl, hk3⟩
    · simp at hkey
  swap
  · rw [hc] at hkey
    rcases o3 with m3 | ⟨ck, e3⟩
    · simp at hkey
    · simp only [Outcome.ret.injEq, Prod.mk.injEq] at hkey
      obtain ⟨_, he⟩ := hkey
      subst he
      exact ⟨rfl, rfl, hk3⟩
  rw [hc] at hkey
  rcases o3 with m3 | ⟨ck, e3⟩
  · simp at hkey
  simp only [Outcome.ret.injEq, Prod.mk.injEq] at hkey
  obtain ⟨hck, he⟩ := hkey
  subst he
  simp only
  rw [hck]
  generalize hkeyeq : P.derive password (sBytes ++ load st.mem sepS) n st.cfg.Rounds p keyLen
    = key
  have hl : key.length = 32 := by
    rw [← hkeyeq, P.derive_length]
    rfl
  have hnc : aes.NewCipher key = (some key, none) := by simp [aes.NewCipher, hl]
  rw [hnc]
  simp only
  -- the cipher text
  have hbs : aes.BlockSize = 16 := rfl
  rw [hbs]
  have hiv := load_fresh_iv mem3 skS.len
  obtain ⟨hx1, hx2, hx3⟩ := XORKeyStreamM_spec P st.mem mem3 key skS hk3 hskv
  generalize makeSlice mem3 (16 + skS.len) = r4 at hiv hx1 hx2 hx3 ⊢
  obtain ⟨mem4, cipherText⟩ := r4
  simp only at hiv hx1 hx2 hx3 ⊢
  rw [hiv]
  have hctr : cipher.NewCTR key (List.replicate 16 0)
      = Outcome.ret { key := key, ctr := List.replicate 16 0 } := by
    simp [cipher.NewCTR, aes.BlockSize]
  rw [hctr]
  simp only
  generalize cipher.XORKeyStreamM P { key := key, ctr := List.replicate 16 0 } mem4
    (reslice cipherText 16 cipherText.len) skS = r5 at hx1 hx2 hx3 ⊢
  obtain ⟨mem5, o5⟩ := r5
  simp only at hx1 hx2 hx3 ⊢
  subst hx1
  simp only
  rw [hx3]
  exact ⟨rfl, trivial, hx2⟩

theorem valid_keeps (mem0 mem : Memory) (s : Slice) (h : Keeps mem0 mem) (hs : s.valid mem0) :
    s.valid mem := by
  refine ⟨Nat.lt_of_lt_of_le hs.1 h.1, ?_⟩
  rw [h.2 s.arr hs.1]
  exact hs.2

theorem view_keeps (cfg : cryptM) (mem0 mem : Memory) (h : Keeps mem0 mem)
    (hwf : State.wf { cfg := cfg, mem := mem0 }) :
    State.view { cfg := cfg, mem := mem } = State.view { cfg := cfg, mem := mem0 } ∧
      State.wf { cfg := cfg, mem := mem } := by
  constructor
  · simp only [State.view]
    congr 1
    · rcases hk : cfg.SignerKey with _ | s
      · rfl
      · simp only [Option.map_some']
        rw [load_keeps mem0 mem s h (hwf.1 s hk).1]
    · rcases hk : cfg.SaltSeparator with _ | s
      · rfl
      · simp only [Option.map_some']
        rw [load_keeps mem0 mem s h (hwf.2 s hk).1]
  · exact ⟨fun s hs => valid_keeps mem0 mem s h (hwf.1 s hs),
      fun s hs => valid_keeps mem0 mem s h (hwf.2 s hs)⟩

theorem sampleState_wf : sampleState.wf := by
  constructor
  · intro s hs
    cases hs
    exact ⟨by decide, by decide⟩
  · intro s hs
    cases hs
    exact ⟨by decide, by decide⟩

/-- C14: a call of `Encode` leaves the struct and the bytes of the signer key
and of the salt separator as they were, so a second call with the same
arguments returns the same result, hash or failure, and every later call
sees the same configuration. -/
theorem Encode_deterministic (P : Primitives) (st : State) (password salt : GoString)
    (hwf : st.wf) :
    (cryptM.Encode P (cryptM.Encode P st password salt).1 password salt).2
        = (cryptM.Encode P st password salt).2 ∧
      (cryptM.Encode P st password salt).1.cfg = st.cfg ∧
      (cryptM.Encode P st password salt).1.view = st.view ∧
      (∀ password2 salt2 : GoString,
        (cryptM.Encode P (cryptM.Encode P st password salt).1 password2 salt2).2
          = (cryptM.Encode P st password2 salt2).2) ∧
      (cryptM.Encode P st password salt).2 = st.view.Encode P password salt := by
  obtain ⟨cfg, mem⟩ := st
  obtain ⟨hout, hcfg, hkeep⟩ := EncodeM_spec P { cfg := cfg, mem := mem } password salt hwf
  generalize cryptM.Encode P { cfg := cfg, mem := mem } password salt = r at hout hcfg hkeep ⊢
  obtain ⟨st2, out⟩ := r
  obtain ⟨cfg2, mem2⟩ := st2
  simp only at hout hcfg hkeep ⊢
  rw [hcfg]
  obtain ⟨hview, hwf2⟩ := view_keeps cfg mem mem2 hkeep hwf
  have hlater : ∀ password2 salt2 : GoString,
      (cryptM.Encode P { cfg := cfg, mem := mem2 } password2 salt2).2
        = (cryptM.Encode P { cfg := cfg, mem := mem } password2 salt2).2 := by
    intro password2 salt2
    rw [(EncodeM_spec P _ password2 salt2 hwf2).1, (EncodeM_spec P _ password2 salt2 hwf).1,
      hview]
  refine ⟨?_, rfl, hview, hlater, hout⟩
  rw [hlater, (EncodeM_spec P _ password salt hwf).1, hout]

theorem Encode_deterministic_witness :
    sampleState.wf ∧
      ((cryptM.Encode samplePrimitives
            (cryptM.Encode samplePrimitives sampleState (str "secretPass") (str "c2FsdA==")).1
            (str "secretPass") (str "c2FsdA==")).2
          = (cryptM.Encode samplePrimitives sampleState (str "secretPass") (str "c2FsdA==")).2 ∧
        (cryptM.Encode samplePrimitives sampleState (str "secretPass") (str "c2FsdA==")).1.cfg
          = sampleState.cfg ∧
        (cryptM.Encode samplePrimitives sampleState (str "secretPass") (str "c2FsdA==")).1.view
          = sampleState.view ∧
        (∀ password2 salt2 : GoString,
          (cryptM.Encode samplePrimitives
              (cryptM.Encode samplePrimitives sampleState (str "secretPass") (str "c2FsdA==")).1
              password2 salt2).2
            = (cryptM.Encode samplePrimitives sampleState password2 salt2).2) ∧
        (cryptM.Encode samplePrimitives sampleState (str "secretPass") (str "c2FsdA==")).2
          = sampleState.view.Encode samplePrimitives (str "secretPass") (str "c2FsdA==")) :=
  ⟨sampleState_wf,
    Encode_deterministic samplePrimitives sampleState (str "secretPass") (str "c2FsdA==")
      sampleState_wf⟩

end FirebaseScrypt
